import Mathlib

/-!
Shallow embedding of the weekly-flow commit-classification and report-merge
engine (src/git_analyzer.py, src/report_generator.py, src/storage.py).

Conventions of the embedding:
* A Python `str` is a Lean `String` (in this toolchain a `String` is a
  structure holding a `List Char`); all custom string operations are defined
  through `String.data` so that proofs reduce to list lemmas.
* `'\n'` is the only line terminator (the documents this program reads and
  writes are produced with `"\n".join`); `str.splitlines` is modelled as
  splitting on `'\n'`.
* Python `str.strip()` strips the whitespace characters
  `' '  '\t'  '\n'  '\r'  '\x0b'  '\x0c'`; `str.lower()` is modelled on the
  ASCII range (the program's CJK text is unaffected by `lower`).
* The regular expressions of the source are compiled by hand into
  deterministic matching functions; comments at each definition record which
  pattern is meant and why backtracking collapses to the stated scan.
* Python `\w` (with full Unicode semantics in the source) is modelled as
  ASCII alphanumerics, `'_'`, and the CJK block U+4E00–U+9FFF — exactly the
  character classes that appear in this program's other patterns.
-/

/-! ## Python string primitives -/

/-- The whitespace set of Python `str.strip` / regex `\s`. -/
def isPyWS (c : Char) : Bool :=
  c == ' ' || c == '\t' || c == '\n' || c == '\r' || c == '\x0b' || c == '\x0c'

/-- `str.strip()` on a character list: drop leading and trailing whitespace. -/
def stripCs (cs : List Char) : List Char :=
  (cs.dropWhile isPyWS).rdropWhile isPyWS

/-- Python `s.strip()`. -/
def pyStrip (s : String) : String := ⟨stripCs s.data⟩

/-- Boolean prefix test on character lists (Python `str.startswith`). -/
def isPfx : List Char → List Char → Bool
  | [], _ => true
  | _ :: _, [] => false
  | a :: as, b :: bs => a == b && isPfx as bs

/-- Python `s.startswith(p)`. -/
def pyStartsWith (s p : String) : Bool := isPfx p.data s.data

/-- Python `s[n:]` (character-based slicing). -/
def strDrop (s : String) (n : Nat) : String := ⟨s.data.drop n⟩

/-- `true` when the string contains no newline character. -/
def noNL (s : String) : Bool := s.data.all (fun c => c != '\n')

/-- Split a character list on `'\n'`; always returns at least one piece, and a
trailing `'\n'` yields a trailing empty piece. -/
def splitOnNL : List Char → List (List Char)
  | [] => [[]]
  | c :: cs =>
      if c = '\n' then [] :: splitOnNL cs
      else (splitOnNL cs).modifyHead (fun p => c :: p)

/-- Python `s.splitlines()` restricted to `'\n'` terminators: like splitting
on `'\n'` but a trailing terminator produces no trailing empty line. -/
def pySplitlines (s : String) : List String :=
  let ps := splitOnNL s.data
  (if ps.getLast? = some [] then ps.dropLast else ps).map (fun p => (⟨p⟩ : String))

/-- Python `"\n".join`. -/
def joinNL : List String → String
  | [] => ""
  | [x] => x
  | x :: xs => x ++ "\n" ++ joinNL xs

/-- Python `"\n\n".join`. -/
def join2NL : List String → String
  | [] => ""
  | [x] => x
  | x :: xs => x ++ "\n\n" ++ join2NL xs

/-- Python `", ".join`. -/
def joinComma : List String → String
  | [] => ""
  | [x] => x
  | x :: xs => x ++ ", " ++ joinComma xs

/-- Python `str.lower()` on one character (ASCII range). -/
def lowerChar (c : Char) : Char :=
  if 'A' ≤ c ∧ c ≤ 'Z' then Char.ofNat (c.toNat + 32) else c

/-- Python `str.lower()`. -/
def pyLower (s : String) : String := ⟨s.data.map lowerChar⟩

/-- Code-point lexicographic order on character lists: the order Python uses
to compare strings in `sorted`. -/
def lexLe : List Char → List Char → Bool
  | [], _ => true
  | _ :: _, [] => false
  | a :: as, b :: bs =>
      if a.toNat < b.toNat then true
      else if b.toNat < a.toNat then false
      else lexLe as bs

/-- Python `s <= t` on strings. -/
def strLe (a b : String) : Bool := lexLe a.data b.data

/-- Python `sorted` on a list of strings (any stable sort; keys compare by
code points, and the result is determined by the multiset of elements). -/
def pySorted (l : List String) : List String :=
  l.insertionSort (fun a b => strLe a b = true)

/-- Python `repr` of a list of strings, `str(['a', 'b']) = "['a', 'b']"`, for
strings that contain no quote or escape character (the keyword tokens fed to
it are purely alphabetic or CJK). -/
def pyReprStrList (l : List String) : String :=
  "[" ++ joinComma (l.map (fun s => "'" ++ s ++ "'")) ++ "]"

/-! ## Character classes for the source's regular expressions -/

/-- `[a-zA-Z]`. -/
def isAsciiAlphaC (c : Char) : Bool :=
  ('a' ≤ c ∧ c ≤ 'z') ∨ ('A' ≤ c ∧ c ≤ 'Z')

/-- The CJK block `[一-鿿]` used by `extract_keywords`. -/
def isCJK (c : Char) : Bool :=
  0x4e00 ≤ c.toNat ∧ c.toNat ≤ 0x9fff

/-- Regex `\w` as used on this program's data (ASCII word characters plus the
CJK block; see the header note). -/
def isWordChar (c : Char) : Bool :=
  isAsciiAlphaC c || c.isDigit || c == '_' || isCJK c

/-- Maximal runs of characters satisfying `p` (the matches of a regex like
`[a-zA-Z]+` under `re.findall`). Written with one character of lookahead so
the recursion is structural. -/
def runsBy (p : Char → Bool) : List Char → List (List Char)
  | [] => []
  | c :: rest =>
      let tailRuns := runsBy p rest
      if p c then
        match rest with
        | [] => [[c]]
        | d :: _ =>
            if p d then
              match tailRuns with
              | [] => [[c]]        -- unreachable: `p d` makes `tailRuns` nonempty
              | r :: rs => (c :: r) :: rs
            else [c] :: tailRuns
      else tailRuns

/-! ## Message classifier — `src/git_analyzer.py`

`parse_commit_message` tests the lower-cased, stripped message against the
ordered rule list `TRIVIAL_PATTERNS` and then attempts the conventional-commit
pattern `^(\w+)(?:\(([^)]+)\))?\s*:\s*(.+)$` on the original message. -/

/-- Greedy `\s*` followed by a required literal: skip maximal whitespace, then
the literal must follow (shorter whitespace matches leave a whitespace
character where the literal's first non-whitespace character is required, so
backtracking never helps). -/
def wsThen (lit : List Char) (cs : List Char) : Bool :=
  isPfx lit (cs.dropWhile isPyWS)

/-- Greedy `\s+` followed by a required literal: at least one whitespace
character, then as `wsThen`. -/
def ws1Then (lit : List Char) (cs : List Char) : Bool :=
  match cs with
  | [] => false
  | c :: _ => isPyWS c && wsThen lit cs

/-- `^fix\s*typo`. -/
def matchFixTypo (cs : List Char) : Bool :=
  isPfx "fix".data cs && wsThen "typo".data (cs.drop 3)

/-- `^update\s*(readme|changelog)`. -/
def matchUpdateDocs (cs : List Char) : Bool :=
  isPfx "update".data cs &&
    (wsThen "readme".data (cs.drop 6) || wsThen "changelog".data (cs.drop 6))

/-- `^merge\s+branch`. -/
def matchMergeBranch (cs : List Char) : Bool :=
  isPfx "merge".data cs && ws1Then "branch".data (cs.drop 5)

/-- `^merge\s+pull\s+request`. -/
def matchMergePull (cs : List Char) : Bool :=
  isPfx "merge".data cs &&
    (match (cs.drop 5) with
     | [] => false
     | c :: _ =>
         isPyWS c && isPfx "pull".data ((cs.drop 5).dropWhile isPyWS) &&
           ws1Then "request".data (((cs.drop 5).dropWhile isPyWS).drop 4))

/-- The ordered rule list `TRIVIAL_PATTERNS`, first match wins, applied to the
lower-cased stripped message (`re.IGNORECASE` is redundant after lowering).
`^wip$` must match the whole (stripped) string; the prefix patterns only
anchor at the start. -/
def is_trivial_message (m : String) : Bool :=
  let low : List Char := (stripCs m.data).map lowerChar
  matchFixTypo low || isPfx "typo".data low || matchUpdateDocs low ||
    matchMergeBranch low || matchMergePull low ||
    low == "wip".data || isPfx "wip:".data low ||
    isPfx "format".data low || isPfx "lint".data low || isPfx "style:".data low

/-- Head of the conventional pattern `^(\w+)(\([^)]+\))?\s*:` shared by the
classifier, `extract_keywords` and `clean_commit_message`: returns the type
word, the optional scope capture, and the remainder after the colon.
Backtracking collapses: `\w+` is the maximal word run (giving characters back
leaves a word character where `(`, whitespace or `:` is required); when `(`
follows, `[^)]+\)` consumes up to the first `)` or the whole pattern fails
(falling back to the empty optional group leaves `(` where `:` is required). -/
def convHead (cs : List Char) : Option (List Char × Option (List Char) × List Char) :=
  let w := cs.takeWhile isWordChar
  if w.isEmpty then none
  else
    let r₁ := cs.drop w.length
    match r₁ with
    | '(' :: t =>
        let q := t.takeWhile (fun c => c != ')')
        if q.isEmpty then none
        else
          match t.drop q.length with
          | ')' :: t₂ =>
              match t₂.dropWhile isPyWS with
              | ':' :: r => some (w, some q, r)
              | _ => none
          | _ => none
    | _ =>
        match r₁.dropWhile isPyWS with
        | ':' :: r => some (w, none, r)
        | _ => none

/-- `(.+)$`: greedy `.` (anything but `'\n'`), with `$` at the end of the
string or just before a final `'\n'`. Returns the capture. -/
def dotPlusEnd (d : List Char) : Option (List Char) :=
  let run := d.takeWhile (fun c => c != '\n')
  if run.isEmpty then none
  else
    match d.drop run.length with
    | [] => some run
    | ['\n'] => some run
    | _ => none

/-- `\s*(.+)$` with the regex engine's greedy backtracking: consume whitespace
as deeply as possible, fall back one character at a time until `(.+)$`
matches. -/
def ssSearch (d : List Char) : Option (List Char) :=
  match d with
  | [] => none
  | c :: cs =>
      if isPyWS c then
        match ssSearch cs with
        | some r => some r
        | none => dotPlusEnd d
      else dotPlusEnd d

/-- The classified fragment produced by `parse_commit_message` (the dict keys
`type`, `scope`, `description`, `is_trivial`; `type` is spelled `ctype` here
because `type` is unusable as a Lean field name everywhere it is projected). -/
structure ParsedCommit where
  ctype : String
  scope : Option String
  description : String
  is_trivial : Bool
deriving DecidableEq

/-- `parse_commit_message` from `src/git_analyzer.py`: trivial detection on
the lower-cased stripped message, then the conventional-commit parse on the
original message; on no match `type="other"`, `description` = the message. -/
def parse_commit_message (m : String) : ParsedCommit :=
  let trivial := is_trivial_message m
  match convHead m.data with
  | some (w, sc, r) =>
      match ssSearch r with
      | some d => ⟨⟨w.map lowerChar⟩, sc.map (fun q => (⟨q⟩ : String)), ⟨d⟩, trivial⟩
      | none => ⟨"other", none, m, trivial⟩
  | none => ⟨"other", none, m, trivial⟩

/-! ## Report generator — `src/report_generator.py` -/

/-- `re.sub(r"^(\w+)(\([^)]+\))?\s*:\s*", "", message)`: remove the
conventional prefix when it matches (the trailing `\s*` is greedy and
unconstrained, hence maximal), otherwise leave the message unchanged. -/
def subConvPfx (m : String) : String :=
  match convHead m.data with
  | some (_, _, r) => ⟨r.dropWhile isPyWS⟩
  | none => m

/-- `clean_commit_message`: strip the conventional prefix, then `strip()`. -/
def clean_commit_message (m : String) : String :=
  pyStrip (subConvPfx m)

/-- The stop-word set of `extract_keywords`. -/
def stop_words : List String :=
  ["the", "and", "for", "with", "this", "that", "from", "into"]

/-- `extract_keywords`: strip the conventional prefix, collect the CJK runs
(`[一-鿿]+`) and then the lower-cased alphabetic runs of length ≥ 3
(`[a-zA-Z]{3,}`), drop stop words, keep the first 3. -/
def extract_keywords (m : String) : List String :=
  let cleaned := (subConvPfx m).data
  let chinese := (runsBy isCJK cleaned).map (fun r => (⟨r⟩ : String))
  let english := ((runsBy isAsciiAlphaC cleaned).filter (fun r => 3 ≤ r.length)).map
    (fun r => (⟨r.map lowerChar⟩ : String))
  let kws := chinese ++ english
  let kept := kws.filter (fun k => !(stop_words.contains (pyLower k)))
  kept.take 3

/-- A raw commit record as the report generator consumes it (the dict keys
`message`, `type`, `is_trivial`, `project`; `type` is spelled `ctype`). -/
structure GitCommit where
  message : String
  ctype : String
  is_trivial : Bool
  project : String
deriving DecidableEq

/-- A merged entry produced by `merge_related_commits`: the representative
commit's record extended with the `details` list. -/
structure MergedCommit where
  message : String
  ctype : String
  details : List String
deriving DecidableEq

/-- The inline order-preserving de-duplication loop used by
`merge_related_commits` and `_dedupe_preserve_order` in `storage.py`: keys are
the stripped strings, empty and repeated keys are skipped, and the stripped
string is what gets kept. `seen` accumulates the keys already emitted. -/
def dedupeAux (seen : List String) : List String → List String
  | [] => []
  | d :: ds =>
      let k := pyStrip d
      if k = "" || seen.contains k then dedupeAux seen ds
      else k :: dedupeAux (k :: seen) ds

/-- `_dedupe_preserve_order` (and the identical inline loop in
`merge_related_commits`). -/
def dedupe_preserve_order (l : List String) : List String := dedupeAux [] l

/-- `str(sorted(keywords)) if keywords else commit["message"]`: the grouping
key of `merge_related_commits`. -/
def commit_key (c : GitCommit) : String :=
  let kws := extract_keywords c.message
  if kws.isEmpty then c.message else pyReprStrList (pySorted kws)

/-- One step of building the `groups` dict: append to the group with this key,
or append a fresh group at the end (Python dict preserves insertion order). -/
def add_to_groups (gs : List (String × List GitCommit)) (k : String) (c : GitCommit) :
    List (String × List GitCommit) :=
  if gs.any (fun g => g.1 == k) then
    gs.map (fun g => if g.1 = k then (g.1, g.2 ++ [c]) else g)
  else gs ++ [(k, [c])]

/-- The `groups` dict of `merge_related_commits`, as an insertion-ordered
association list. -/
def build_groups (cs : List GitCommit) : List (String × List GitCommit) :=
  cs.foldl (fun gs c => add_to_groups gs (commit_key c) c) []

/-- Merge one group: the representative is the first `feat` commit, else the
group's first commit; `details` is the de-duplicated cleaned-message list,
emptied when fewer than 2 unique details remain. -/
def group_entry (g : List GitCommit) : MergedCommit :=
  match g with
  | [] => ⟨"", "", []⟩      -- unreachable: groups are built nonempty
  | c :: _ =>
      let main := (g.find? (fun x => x.ctype == "feat")).getD c
      let uniq := dedupe_preserve_order (g.map (fun x => clean_commit_message x.message))
      ⟨main.message, main.ctype, if 1 < uniq.length then uniq else []⟩

/-- `merge_related_commits`: empty in, empty out; a single commit is returned
as-is with empty `details`; otherwise group by `commit_key` and merge each
group. -/
def merge_related_commits (cs : List GitCommit) : List MergedCommit :=
  match cs with
  | [] => []
  | [c] => [⟨c.message, c.ctype, []⟩]
  | _ => (build_groups cs).map (fun g => group_entry g.2)

/-- `filter_trivial_commits`. -/
def filter_trivial_commits (cs : List GitCommit) : List GitCommit :=
  cs.filter (fun c => !c.is_trivial)

/-- `group_commits_by_project` from `src/git_analyzer.py` (every commit in
this model carries a `project`, so the `.get("project", "unknown")` default
never fires). -/
def group_commits_by_project (cs : List GitCommit) : List (String × List GitCommit) :=
  cs.foldl
    (fun gs c =>
      if gs.any (fun g => g.1 == c.project) then
        gs.map (fun g => if g.1 = c.project then (g.1, g.2 ++ [c]) else g)
      else gs ++ [(c.project, [c])])
    []

/-- `summarize_commit`: clean, truncate to `maxLength` with a `"..."` marker
(the source's `max_length` defaults to 20; the parameter is explicit here),
then `strip()`. -/
def summarize_commit (m : String) (maxLength : Nat) : String :=
  let cleaned := clean_commit_message m
  let truncated :=
    if maxLength < cleaned.length then (⟨cleaned.data.take (maxLength - 3)⟩ : String) ++ "..."
    else cleaned
  pyStrip truncated

/-- `format_project_section`. -/
def format_project_section (proj : String) (commits : List MergedCommit) : String :=
  joinNL (proj ::
    commits.flatMap (fun c =>
      ("  - " ++ summarize_commit c.message 20) :: c.details.map (fun d => "    - " ++ d)))

/-- `format_other_section`. -/
def format_other_section (supplements : List String) : String :=
  joinNL ("其他" :: supplements.map (fun i => "  - " ++ i))

/-- `generate_report`: filter trivial commits, group by project, render the
projects in sorted label order (Python `sorted` on `(key, value)` pairs; keys
are unique so only the label comparison matters), append the supplements
section, and join the sections with blank lines. An absent `supplements`
argument is the empty list (both are falsy in the source). -/
def generate_report (commits : List GitCommit) (supplements : List String) : String :=
  if commits.isEmpty && supplements.isEmpty then ""
  else
    let filtered := filter_trivial_commits commits
    let grouped := group_commits_by_project filtered
    let inOrder := grouped.insertionSort (fun a b => strLe a.1 b.1 = true)
    let secs := inOrder.map (fun p => format_project_section p.1 (merge_related_commits p.2))
    let secs := secs ++ (if supplements.isEmpty then [] else [format_other_section supplements])
    join2NL secs

/-! ## Document storage — `src/storage.py`

`_parse_report_markdown` is a line-oriented state machine; its mutable
`current_entry` alias is always the last entry of the section named by
`current_section`, so the functional model appends/updates at that position.
Sections are an insertion-ordered association list (a Python dict). -/

/-- `ReportEntry` from `src/storage.py`. -/
structure ReportEntry where
  summary : String
  details : List String
deriving DecidableEq

/-- The `sections` dict: insertion-ordered label/entries pairs. -/
abbrev RSections : Type := List (String × List ReportEntry)

/-- `line.strip()` is empty. -/
def blankLine (l : String) : Bool := stripCs l.data == []

/-- Append a parsed entry to the section named `label`. -/
def appendEntry (secs : RSections) (label : String) (e : ReportEntry) : RSections :=
  secs.map (fun p => if p.1 = label then (p.1, p.2 ++ [e]) else p)

/-- `current_entry.details.append d`: extend the last entry of a section. -/
def updLastEntry : List ReportEntry → String → List ReportEntry
  | [], _ => []
  | [e], d => [⟨e.summary, e.details ++ [d]⟩]
  | e :: e' :: es, d => e :: updLastEntry (e' :: es) d

/-- Append a detail to the last entry of the section named `label`. -/
def appendDetail (secs : RSections) (label : String) (d : String) : RSections :=
  secs.map (fun p => if p.1 = label then (p.1, updLastEntry p.2 d) else p)

/-- The parser state of `_parse_report_markdown`: the growing preamble and
sections, the current section name, whether an entry is open
(`current_entry is not None`), and `started_sections`. -/
structure PState where
  pre : List String
  secs : RSections
  cur : Option String
  entryOpen : Bool
  started : Bool
deriving DecidableEq

/-- One loop iteration of `_parse_report_markdown` (the `rstrip("\n")` of the
source is a no-op after `splitlines`). -/
def parseStep (st : PState) (line : String) : PState :=
  if blankLine line then
    if st.started then st else { st with pre := st.pre ++ [line] }
  else if pyStartsWith line "#" && !st.started then
    { st with pre := st.pre ++ [line] }
  else if !(pyStartsWith line " ") then
    let label := pyStrip line
    { st with
      started := true
      cur := some label
      entryOpen := false
      secs := if st.secs.any (fun p => p.1 == label) then st.secs else st.secs ++ [(label, [])] }
  else if pyStartsWith line "  - " then
    let summary := pyStrip (strDrop line 4)
    match st.cur with
    | none =>
        { st with
          started := true
          cur := some "其他"
          entryOpen := true
          secs := appendEntry (st.secs ++ [("其他", [])]) "其他" ⟨summary, []⟩ }
    | some c =>
        { st with entryOpen := true, secs := appendEntry st.secs c ⟨summary, []⟩ }
  else if pyStartsWith line "    - " && st.entryOpen then
    match st.cur with
    | some c => { st with secs := appendDetail st.secs c (pyStrip (strDrop line 6)) }
    | none => st    -- unreachable: an open entry implies a current section
  else if st.entryOpen && pyStartsWith line " " then
    match st.cur with
    | some c => { st with secs := appendDetail st.secs c (pyStrip line) }
    | none => st    -- unreachable likewise
  else st

/-- The initial parser state. -/
def initPState : PState := ⟨[], [], none, false, false⟩

/-- Run the parser over a line list. -/
def parseLinesSt (lines : List String) : PState :=
  lines.foldl parseStep initPState

/-- `_parse_report_markdown`. -/
def parse_report_markdown (content : String) : List String × RSections :=
  let st := parseLinesSt (pySplitlines content)
  (st.pre, st.secs)

/-- Merge one incoming entry into the accumulated entry list of a section:
update the *last* entry carrying this summary (`by_summary` is a dict
comprehension, so the last binding wins and the loop keeps it pointed at the
last such entry), else append. -/
def updLastBySummary : List ReportEntry → ReportEntry → List ReportEntry
  | [], _ => []
  | t :: ts, e =>
      if ts.any (fun x => x.summary == e.summary) then t :: updLastBySummary ts e
      else if t.summary = e.summary then
        ⟨t.summary, dedupe_preserve_order (t.details ++ e.details)⟩ :: ts
      else t :: updLastBySummary ts e

/-- One incoming entry folded into the accumulated entry list. -/
def mergeOneEntry (acc : List ReportEntry) (e : ReportEntry) : List ReportEntry :=
  if acc.any (fun t => t.summary == e.summary) then updLastBySummary acc e
  else acc ++ [e]

/-- Entry-by-entry merge of one section (the inner loop of `_merge_sections`). -/
def mergeEntries (existing incoming : List ReportEntry) : List ReportEntry :=
  incoming.foldl mergeOneEntry existing

/-- `_merge_sections`: copy the existing sections, fold the new ones in, then
the defensive final pass re-deduplicating every detail list. -/
def merge_sections (existing new : RSections) : RSections :=
  let base := new.foldl
    (fun acc p =>
      if acc.any (fun q => q.1 == p.1) then
        acc.map (fun q => if q.1 = p.1 then (q.1, mergeEntries q.2 p.2) else q)
      else acc ++ [p])
    existing
  base.map (fun q => (q.1, q.2.map (fun e => ⟨e.summary, dedupe_preserve_order e.details⟩)))

/-- The two lines of one rendered entry: the bullet and its nested details. -/
def entryLines (e : ReportEntry) : List String :=
  ("  - " ++ e.summary) :: e.details.map (fun d => "    - " ++ d)

/-- The lines of one rendered section: label, entries, then the separating
blank line the renderer appends after every section. -/
def sectionLines (p : String × List ReportEntry) : List String :=
  p.1 :: p.2.flatMap entryLines ++ [""]

/-- The line list assembled by `_render_report_markdown` before the trailing
blank-line pop. -/
def renderBody (secs : RSections) : List String :=
  secs.flatMap sectionLines

/-- The preamble block: the preamble followed by one separating blank line
when its last line is non-blank. -/
def renderPre (pre : List String) : List String :=
  match pre.getLast? with
  | none => []
  | some last => pre ++ (if blankLine last then [] else [""])

/-- The `while lines and not lines[-1].strip(): lines.pop()` loop. -/
def popBlanks (l : List String) : List String := l.rdropWhile blankLine

/-- The line list of `_render_report_markdown`. -/
def renderLines (pre : List String) (secs : RSections) : List String :=
  popBlanks (renderPre pre ++ renderBody secs)

/-- `_render_report_markdown`: join the lines and terminate with `"\n"`. -/
def render_report_markdown (pre : List String) (secs : RSections) : String :=
  joinNL (renderLines pre secs) ++ "\n"

/-- `merge_report_content`: parse both documents, keep the existing preamble
when non-empty (Python `or`), merge the sections, re-render. -/
def merge_report_content (existing new : String) : String :=
  let pe := parse_report_markdown existing
  let pn := parse_report_markdown new
  render_report_markdown (if pe.1.isEmpty then pn.1 else pe.1) (merge_sections pe.2 pn.2)

/-! ## Well-formedness predicates used in the statements -/

/-- The string is already stripped. -/
def trimmedB (s : String) : Bool := stripCs s.data == s.data

/-- Newline-free and stripped: every label, summary and detail string that
the parser ever stores satisfies this. -/
def strOkB (s : String) : Bool := noNL s && trimmedB s

/-- A valid section label: newline-free, stripped and non-empty. -/
def labelOkB (l : String) : Bool := strOkB l && !(l == "")

/-- A well-formed entry: its summary and details are newline-free and
stripped. -/
def entryOkB (e : ReportEntry) : Bool := strOkB e.summary && e.details.all strOkB

/-- No repeated string in the list. -/
def nodupB : List String → Bool
  | [] => true
  | x :: xs => !(xs.contains x) && nodupB xs

/-- Well-formed sections: valid unique labels, well-formed entries, and a
first label that does not begin with the heading marker `#` (a first section
line starting with `#` would be absorbed into the preamble on re-parse). -/
def sectionsOkB (S : RSections) : Bool :=
  S.all (fun p => labelOkB p.1 && p.2.all entryOkB) &&
    nodupB (S.map (fun p => p.1)) &&
    (match S.head? with
     | some p => !(pyStartsWith p.1 "#")
     | none => true)

/-- A well-formed preamble: every line is newline-free and either blank or
begins with `#`. -/
def preOkB (pre : List String) : Bool :=
  pre.all (fun l => noNL l && (blankLine l || pyStartsWith l "#"))

/-- Per-section unique entry summaries. -/
def uniqSummariesB (S : RSections) : Bool :=
  S.all (fun p => nodupB (p.2.map (fun e => e.summary)))

/-- Every detail list is already in de-duplicated normal form. -/
def dedupNormalB (S : RSections) : Bool :=
  S.all (fun p => p.2.all (fun e => dedupe_preserve_order e.details == e.details))

/-- The final defensive de-duplication pass of `_merge_sections` in
isolation. -/
def dedupAllSections (S : RSections) : RSections :=
  S.map (fun q => (q.1, q.2.map (fun e => ⟨e.summary, dedupe_preserve_order e.details⟩)))

/-- "Terminated by exactly one trailing newline": the text ends with `'\n'`,
and either it is exactly `"\n"` or the line before that final newline is
non-blank (so there is no trailing blank content). -/
def properlyTerminated (s : String) : Bool :=
  match splitOnNL s.data with
  | ps =>
      ps.getLast? == some ([] : List Char) &&
        (ps.dropLast == [([] : List Char)] ||
          (match ps.dropLast.getLast? with
           | some l => !(stripCs l == [])
           | none => false))

/-- The well-formedness invariant the parser maintains: sections carry valid
unique labels and well-formed entries, the preamble holds only blank or
heading lines, and no section exists before the current-section pointer is
set. -/
def ParseInv (st : PState) : Prop :=
  st.secs.all (fun p => labelOkB p.1 && p.2.all entryOkB) = true ∧
    nodupB (st.secs.map (fun p => p.1)) = true ∧
    preOkB st.pre = true ∧
    (st.cur = none → st.secs = [])

/-- The head-label condition of `sectionsOkB` in isolation: the first section
label, when there is one, does not begin with the heading marker. -/
def headLabelOkB (S : RSections) : Bool :=
  match S.head? with
  | some p => !(pyStartsWith p.1 "#")
  | none => true

/-- The body of the section-merging fold of `_merge_sections`, named for the
invariant proofs: merge into the section with this label, else append. -/
def mergeSecStep (acc : RSections) (p : String × List ReportEntry) : RSections :=
  if acc.any (fun q => q.1 == p.1) then
    acc.map (fun q => if q.1 = p.1 then (q.1, mergeEntries q.2 p.2) else q)
  else acc ++ [p]

/-! ## Spec-side definitions (for refinement statements) -/

/-- Modelled from the spec's keyword-key wording, written independently of
the source's scanner: tokens are the non-empty pieces the description breaks
into around non-member characters — all CJK runs first, then the lower-cased
alphabetic runs of length ≥ 3 — minus stop words, truncated to the first 3. -/
def spec_keyword_key (m : String) : List String :=
  let cleaned := (subConvPfx m).data
  let cjkTokens :=
    ((cleaned.splitOnP (fun c => !(isCJK c))).filter (fun r => !r.isEmpty)).map
      (fun r => (⟨r⟩ : String))
  let alphaTokens :=
    ((cleaned.splitOnP (fun c => !(isAsciiAlphaC c))).filter (fun r => 3 ≤ r.length)).map
      (fun r => pyLower ⟨r⟩)
  ((cjkTokens ++ alphaTokens).filter (fun k => !(stop_words.contains (pyLower k)))).take 3

/-! ## Concrete inputs referenced by the claims -/

/-- The end-to-end scenario of the spec: `["feat: add login",
"feat: refine login", "chore: bump deps"]`, all non-trivial, one project. -/
def demoC1 : List GitCommit :=
  [⟨"feat: add login", "feat", false, "p"⟩,
   ⟨"feat: refine login", "feat", false, "p"⟩,
   ⟨"chore: bump deps", "chore", false, "p"⟩]

/-- A single non-trivial commit, for the `generate_report` output shape. -/
def demoC5 : List GitCommit := [⟨"feat: add login", "feat", false, "proj"⟩]

/-- A hand-edited document whose one section contains two entries with the
same summary but different details. -/
def dupSummaryDoc : String := "A\n  - x\n    - p\n  - x\n    - q\n"

/-- A hand-edited document whose first section line is a tab followed by a
heading marker: it parses as a section labelled `#foo`, which the renderer
then emits as a line starting with `#`. -/
def tabHashDoc : String := "\t#foo\n  - x"

/-! ## Theorems -/

/-- `runsBy` satisfies the scan equation of the regex matcher: a satisfying
head character starts a run that is the maximal satisfying prefix. -/
theorem runsBy_cons_pos (p : Char → Bool) (c : Char) (cs : List Char) (h : p c = true) :
    runsBy p (c :: cs) = (c :: cs.takeWhile p) :: runsBy p (cs.dropWhile p) := by
  induction cs generalizing c with
  | nil => simp [runsBy, h]
  | cons d t ih =>
      by_cases hd : p d = true
      · conv_lhs => rw [runsBy]
        rw [ih d hd]
        simp [h, hd, List.takeWhile_cons, List.dropWhile_cons]
      · simp [runsBy, h, hd, List.takeWhile_cons, List.dropWhile_cons]

/-- The scanner's maximal runs are the non-empty pieces of `splitOnP` over
the complement class. -/
theorem runsBy_eq_splitOnP (p : Char → Bool) (cs : List Char) :
    runsBy p cs = (cs.splitOnP (fun c => !(p c))).filter (fun r => !r.isEmpty) := by
  induction cs with
  | nil => simp [runsBy, List.splitOnP_nil]
  | cons c t ih =>
      by_cases hc : p c = true
      · rw [runsBy_cons_pos p c t hc]
        match t, ih with
        | [], _ => simp [runsBy, List.splitOnP_nil, hc]
        | d :: t', ih =>
            by_cases hd : p d = true
            · obtain ⟨s₀, S', hS⟩ := List.exists_cons_of_ne_nil
                (List.splitOnP_ne_nil (p := fun c => !(p c)) t')
              rw [runsBy_cons_pos p d t' hd] at ih
              simp only [List.splitOnP_cons, hc, hd, Bool.not_true, Bool.false_eq_true,
                if_false, hS, List.modifyHead_cons, List.filter_cons, List.isEmpty_cons,
                Bool.not_false, if_true] at ih ⊢
              simp only [List.takeWhile_cons, List.dropWhile_cons, hd, if_true] at ih ⊢
              rw [List.cons.injEq] at ih
              rw [ih.1, ih.2]
            · simp only [List.splitOnP_cons, hc, hd, Bool.not_true, Bool.not_false,
                Bool.false_eq_true, if_true, if_false, List.modifyHead_cons,
                List.filter_cons, List.isEmpty_cons, List.isEmpty_nil] at ih ⊢
              simp only [List.takeWhile_cons, List.dropWhile_cons, hd,
                Bool.false_eq_true, if_false] at ih ⊢
              rw [ih]
      · simp only [Bool.not_eq_true] at hc
        simp [runsBy, hc, List.splitOnP_cons, ih]

/-- C1 (counterexample): on the spec's own scenario
`["feat: add login", "feat: refine login", "chore: bump deps"]` the grouper
produces three entries, not the two the claim asserts — sharing the keyword
`login` does not put the first two commits in one group. -/
theorem claim_C1_counterexample :
    (merge_related_commits demoC1).length = 3 ∧ (merge_related_commits demoC1).length ≠ 2 := by
  decide

/-- C1 (amended): the grouping key is the string form of the whole sorted
keyword list, so `"feat: add login"` (key `['add', 'login']`) and
`"feat: refine login"` (key `['login', 'refine']`) fall into different
groups: the scenario yields three singleton entries, each with empty details,
and two commits are merged only when their sorted keyword lists coincide
exactly — sharing one salient token does not suffice. -/
theorem claim_C1 :
    merge_related_commits demoC1 =
      [⟨"feat: add login", "feat", []⟩,
       ⟨"feat: refine login", "feat", []⟩,
       ⟨"chore: bump deps", "chore", []⟩] ∧
    commit_key ⟨"feat: add login", "feat", false, "p"⟩ = "['add', 'login']" ∧
    commit_key ⟨"feat: refine login", "feat", false, "p"⟩ = "['login', 'refine']" ∧
    commit_key ⟨"chore: bump deps", "chore", false, "p"⟩ = "['bump', 'deps']" := by
  decide

/-- C7 (counterexample): for the message `"abc 中文"` the keyword key is
`["中文", "abc"]` — all CJK runs come before all alphabetic tokens — not the
order of appearance `["abc", "中文"]` the claim asserts. -/
theorem claim_C7_counterexample :
    extract_keywords "abc 中文" = ["中文", "abc"] ∧
      extract_keywords "abc 中文" ≠ ["abc", "中文"] := by
  decide

/-- C7 (amended): for every commit message the keyword key strips the
conventional prefix, extracts the CJK runs and the lower-cased alphabetic
tokens of length ≥ 3, drops the stop words, and keeps at most the first 3
tokens of the list that has all CJK runs first (in order of appearance) and
all alphabetic tokens after them (in order of appearance) — proven as a
refinement against an independently phrased spec-side definition. -/
theorem claim_C7 : ∀ m : String, extract_keywords m = spec_keyword_key m := by
  intro m
  have hfil : ∀ (l : List (List Char)),
      (l.filter (fun r => !r.isEmpty)).filter (fun r => decide (3 ≤ r.length)) =
        l.filter (fun r => decide (3 ≤ r.length)) := by
    intro l
    rw [List.filter_filter]
    apply List.filter_congr
    intro a _
    cases a <;> simp
  simp only [extract_keywords, spec_keyword_key, runsBy_eq_splitOnP, hfil]
  rfl

/-- A successful `(.+)$` capture is part of the scanned text. -/
theorem dotPlusEnd_sublist {d r : List Char} (h : dotPlusEnd d = some r) : r.Sublist d := by
  unfold dotPlusEnd at h
  dsimp only at h
  split at h
  · exact absurd h (by simp)
  · split at h
    · cases h
      exact List.takeWhile_sublist _
    · cases h
      exact List.takeWhile_sublist _
    · exact absurd h (by simp)

/-- A successful `\s*(.+)$` capture is part of the scanned text. -/
theorem ssSearch_sublist {d r : List Char} (h : ssSearch d = some r) : r.Sublist d := by
  induction d with
  | nil => exact absurd h (by simp [ssSearch])
  | cons c cs ih =>
      unfold ssSearch at h
      split at h
      · split at h
        · cases h
          rename_i r' hr'
          exact (ih hr').trans (List.sublist_cons_self c cs)
        · exact dotPlusEnd_sublist h
      · exact dotPlusEnd_sublist h

/-- The remainder after the conventional `type(scope):` head is part of the
message. -/
theorem convHead_sublist {cs w r : List Char} {sc : Option (List Char)}
    (h : convHead cs = some (w, sc, r)) : r.Sublist cs := by
  unfold convHead at h
  dsimp only at h
  split at h
  · exact absurd h (by simp)
  · have hdrop : (cs.drop (cs.takeWhile isWordChar).length).Sublist cs :=
      List.drop_sublist _ _
    split at h
    · rename_i t ht
      split at h
      · exact absurd h (by simp)
      · split at h
        · rename_i t₂ ht₂
          split at h
          · rename_i r' hr'
            cases h
            have h1 : r.Sublist t₂ := by
              have : (t₂.dropWhile isPyWS).Sublist t₂ := List.dropWhile_sublist _
              rw [hr'] at this
              exact (List.sublist_cons_self ':' r).trans this
            have h2 : t₂.Sublist (t.drop (t.takeWhile (fun c => c != ')')).length) := by
              rw [ht₂]
              exact List.sublist_cons_self ')' t₂
            have h3 : (t.drop (t.takeWhile (fun c => c != ')')).length).Sublist t :=
              List.drop_sublist _ _
            have h4 : t.Sublist (cs.drop (cs.takeWhile isWordChar).length) := by
              rw [ht]
              exact List.sublist_cons_self '(' t
            exact (((h1.trans h2).trans h3).trans h4).trans hdrop
          · exact absurd h (by simp)
        · exact absurd h (by simp)
    · rename_i hne
      split at h
      · rename_i r' hr'
        cases h
        have h1 : r.Sublist (cs.drop (cs.takeWhile isWordChar).length) := by
          have : ((cs.drop (cs.takeWhile isWordChar).length).dropWhile isPyWS).Sublist
              (cs.drop (cs.takeWhile isWordChar).length) := List.dropWhile_sublist _
          rw [hr'] at this
          exact (List.sublist_cons_self ':' r).trans this
        exact h1.trans hdrop
      · exact absurd h (by simp)

/-- C8: the classifier is total — it is a plain function of the message, its
description is always a piece of the input (the whole message on a failed
conventional parse, the captured remainder otherwise) — and on the empty
string it returns `type="other"`, `description=""`, `is_trivial=False`. -/
theorem claim_C8 :
    parse_commit_message "" = ⟨"other", none, "", false⟩ ∧
      ∀ m : String, (parse_commit_message m).description.data.Sublist m.data := by
  constructor
  · decide
  · intro m
    unfold parse_commit_message
    cases hc : convHead m.data with
    | none => simp
    | some triple =>
        obtain ⟨w, sc, r⟩ := triple
        cases hs : ssSearch r with
        | none => simp [hs]
        | some d =>
            simp only [hs]
            exact (ssSearch_sublist hs).trans (convHead_sublist hc)

/-- The head of a whitespace-`dropWhile` is never whitespace. -/
theorem head_dropWhile_not_ws (l : List Char) (c : Char)
    (h : (l.dropWhile isPyWS).head? = some c) : isPyWS c = false := by
  induction l with
  | nil => simp at h
  | cons a t ih =>
      rw [List.dropWhile_cons] at h
      by_cases ha : isPyWS a = true
      · rw [if_pos ha] at h
        exact ih h
      · rw [if_neg ha] at h
        cases h
        simpa using ha

/-- The head of a stripped string is never whitespace. -/
theorem head_stripCs_not_ws (l : List Char) (c : Char)
    (h : (stripCs l).head? = some c) : isPyWS c = false := by
  unfold stripCs at h
  have hne : (l.dropWhile isPyWS).rdropWhile isPyWS ≠ [] := by
    intro hnil
    rw [hnil] at h
    simp at h
  obtain ⟨t, ht⟩ := List.rdropWhile_prefix isPyWS (l.dropWhile isPyWS)
  apply head_dropWhile_not_ws l c
  rw [← ht, List.head?_append_of_ne_nil _ hne]
  exact h

/-- The last character of a stripped string is never whitespace. -/
theorem last_stripCs_not_ws (l : List Char) (c : Char)
    (h : (stripCs l).getLast? = some c) : isPyWS c = false := by
  unfold stripCs at h
  have hne : (l.dropWhile isPyWS).rdropWhile isPyWS ≠ [] := by
    intro hnil
    rw [hnil] at h
    simp at h
  have hlast := List.rdropWhile_last_not isPyWS (l.dropWhile isPyWS) hne
  rw [List.getLast?_eq_getLast _ hne] at h
  cases h
  simpa using hlast

/-- A list whose first and last characters are non-whitespace is unchanged by
`strip()`. -/
theorem stripCs_eq_self_of (l : List Char)
    (hh : ∀ c, l.head? = some c → isPyWS c = false)
    (hl : ∀ c, l.getLast? = some c → isPyWS c = false) : stripCs l = l := by
  unfold stripCs
  have h1 : l.dropWhile isPyWS = l := by
    cases l with
    | nil => rfl
    | cons a t =>
        rw [List.dropWhile_cons, if_neg]
        simp [hh a rfl]
  rw [h1, List.rdropWhile_eq_self_iff]
  intro hne
  rw [Bool.not_eq_true]
  exact hl _ (List.getLast?_eq_getLast l hne)

/-- `strip()` is idempotent. -/
theorem stripCs_idem (l : List Char) : stripCs (stripCs l) = stripCs l :=
  stripCs_eq_self_of _ (head_stripCs_not_ws l) (last_stripCs_not_ws l)

/-- C9: whenever the cleaned description has exactly 30 characters, the
20-character-budget summary is the first 17 characters followed by the
3-character `"..."` marker, for a total length of exactly 20. -/
theorem claim_C9 (m : String) (h : (clean_commit_message m).length = 30) :
    summarize_commit m 20 = (⟨(clean_commit_message m).data.take 17⟩ : String) ++ "..." ∧
      (summarize_commit m 20).length = 20 := by
  have hdata : (clean_commit_message m).data.length = 30 := h
  have hlt : (20 : Nat) < (clean_commit_message m).length := by omega
  have hstr : summarize_commit m 20 =
      pyStrip ((⟨(clean_commit_message m).data.take 17⟩ : String) ++ "...") := by
    unfold summarize_commit
    dsimp only
    rw [if_pos hlt]
  have hne : (clean_commit_message m).data ≠ [] := by
    intro hnil
    rw [hnil] at hdata
    simp at hdata
  have hheadcl : ∀ c, (clean_commit_message m).data.head? = some c → isPyWS c = false := by
    intro c hc
    exact head_stripCs_not_ws (subConvPfx m).data c hc
  have htake_ne : (clean_commit_message m).data.take 17 ≠ [] := by
    intro hnil
    have := congrArg List.length hnil
    rw [List.length_take] at this
    simp [hdata] at this
  have hself : stripCs ((clean_commit_message m).data.take 17 ++ "...".data) =
      (clean_commit_message m).data.take 17 ++ "...".data := by
    apply stripCs_eq_self_of
    · intro c hc
      rw [List.head?_append_of_ne_nil _ htake_ne] at hc
      apply hheadcl c
      cases hd : (clean_commit_message m).data with
      | nil => exact absurd hd hne
      | cons a t =>
          rw [hd] at hc
          have : (List.take 17 (a :: t)).head? = some a := by simp
          rw [this] at hc
          cases hc
          rfl
    · intro c hc
      rw [List.getLast?_append_of_ne_nil _ (by simp : "...".data ≠ [])] at hc
      have : ("...".data : List Char).getLast? = some '.' := by decide
      rw [this] at hc
      cases hc
      decide
  constructor
  · rw [hstr]
    show (⟨stripCs ((clean_commit_message m).data.take 17 ++ "...".data)⟩ : String) = _
    rw [hself]
    rfl
  · rw [hstr]
    show (stripCs ((clean_commit_message m).data.take 17 ++ "...".data)).length = 20
    rw [hself, List.length_append, List.length_take]
    simp [hdata]

/-- C9 (witness): the concrete 30-character description
`"123456789012345678901234567890"`. -/
theorem claim_C9_witness :
    summarize_commit "feat: 123456789012345678901234567890" 20 = "12345678901234567..." ∧
      (summarize_commit "feat: 123456789012345678901234567890" 20).length = 20 := by
  have h := claim_C9 "feat: 123456789012345678901234567890" (by decide)
  refine ⟨?_, h.2⟩
  rw [h.1]
  decide

/-- Totality of the code-point order. -/
theorem lexLe_total : ∀ a b : List Char, lexLe a b = true ∨ lexLe b a = true := by
  intro a
  induction a with
  | nil => intro b; left; rfl
  | cons x xs ih =>
      intro b
      cases b with
      | nil => right; rfl
      | cons y ys =>
          by_cases h1 : x.toNat < y.toNat
          · left
            simp [lexLe, h1]
          · by_cases h2 : y.toNat < x.toNat
            · right
              simp [lexLe, h2]
            · rcases ih ys with h | h
              · left
                simp [lexLe, h1, h2, h]
              · right
                simp [lexLe, h1, h2, h]

/-- Transitivity of the code-point order. -/
theorem lexLe_trans : ∀ a b c : List Char,
    lexLe a b = true → lexLe b c = true → lexLe a c = true := by
  intro a
  induction a with
  | nil => intro b c _ _; rfl
  | cons x xs ih =>
      intro b c hab hbc
      cases b with
      | nil => simp [lexLe] at hab
      | cons y ys =>
          cases c with
          | nil => simp [lexLe] at hbc
          | cons z zs =>
              simp only [lexLe] at hab hbc ⊢
              split_ifs at hab hbc ⊢ <;>
                first
                  | rfl
                  | omega
                  | exact ih ys zs hab hbc

/-- Antisymmetry of the code-point order. -/
theorem lexLe_antisymm : ∀ a b : List Char,
    lexLe a b = true → lexLe b a = true → a = b := by
  intro a
  induction a with
  | nil =>
      intro b _ hba
      cases b with
      | nil => rfl
      | cons y ys => simp [lexLe] at hba
  | cons x xs ih =>
      intro b hab hba
      cases b with
      | nil => simp [lexLe] at hab
      | cons y ys =>
          simp only [lexLe] at hab hba
          split_ifs at hab hba <;>
            first
              | omega
              | (have hxy : x = y := by
                  have hn : x.toNat = y.toNat := by omega
                  have hv : x.val.toNat = y.val.toNat := hn
                  exact Char.ext (UInt32.toNat.inj hv)
                 rw [hxy, ih ys hab hba])

/-- Permutation invariance of Python `sorted`: any two lists with the same
multiset of strings sort to the same list. -/
theorem pySorted_perm_eq {l₁ l₂ : List String} (h : l₁.Perm l₂) :
    pySorted l₁ = pySorted l₂ := by
  haveI : IsTotal String (fun a b => strLe a b = true) :=
    ⟨fun a b => lexLe_total a.data b.data⟩
  haveI : IsTrans String (fun a b => strLe a b = true) :=
    ⟨fun a b c hab hbc => lexLe_trans a.data b.data c.data hab hbc⟩
  haveI : IsAntisymm String (fun a b => strLe a b = true) :=
    ⟨fun a b hab hba => by
      cases a with
      | mk da =>
          cases b with
          | mk db => exact congrArg String.mk (lexLe_antisymm da db hab hba)⟩
  unfold pySorted
  exact List.eq_of_perm_of_sorted (r := fun a b => strLe a b = true)
    ((List.perm_insertionSort _ l₁).trans (h.trans (List.perm_insertionSort _ l₂).symm))
    (List.sorted_insertionSort _ l₁) (List.sorted_insertionSort _ l₂)

/-- Two commits with non-empty, permutation-equal keyword lists get the same
grouping key. -/
theorem commit_key_of_perm (c₁ c₂ : GitCommit)
    (hne : extract_keywords c₁.message ≠ [])
    (hperm : (extract_keywords c₁.message).Perm (extract_keywords c₂.message)) :
    commit_key c₁ = commit_key c₂ := by
  have hne₂ : extract_keywords c₂.message ≠ [] := by
    intro hnil
    rw [hnil] at hperm
    exact hne hperm.eq_nil
  unfold commit_key
  rw [if_neg (by simpa using hne), if_neg (by simpa using hne₂), pySorted_perm_eq hperm]

/-- `List.contains` on strings is membership. -/
theorem containsB_iff (l : List String) (a : String) : l.contains a = true ↔ a ∈ l := by
  rw [List.contains_iff_exists_mem_beq]
  constructor
  · rintro ⟨x, hx, hax⟩
    rw [beq_iff_eq] at hax
    rwa [hax]
  · intro h
    exact ⟨a, h, by simp⟩

/-- `nodupB` tolerates appending one fresh element. -/
theorem nodupB_append_single (xs : List String) (x : String)
    (h : nodupB xs = true) (hx : xs.contains x = false) : nodupB (xs ++ [x]) = true := by
  induction xs with
  | nil => simp [nodupB]
  | cons a t ih =>
      simp only [nodupB, Bool.and_eq_true, Bool.not_eq_true'] at h
      have hx' : ¬ x ∈ (a :: t) := by
        intro hmem
        rw [← containsB_iff] at hmem
        rw [hmem] at hx
        cases hx
      simp only [List.cons_append, nodupB, Bool.and_eq_true, Bool.not_eq_true']
      refine ⟨?_, ih h.2 ?_⟩
      · rw [Bool.eq_false_iff]
        intro hcon
        rw [containsB_iff] at hcon
        simp only [List.append_eq] at hcon
        rw [List.mem_append] at hcon
        rcases hcon with hin | hin
        · rw [← containsB_iff] at hin
          rw [hin] at h
          exact absurd h.1 (by simp)
        · simp only [List.mem_singleton] at hin
          exact hx' (by rw [← hin]; exact List.mem_cons_self a t)
      · rw [Bool.eq_false_iff]
        intro hcon
        exact hx' (List.mem_cons_of_mem a ((containsB_iff t x).mp hcon))

/-- `add_to_groups` keeps the group keys unique. -/
theorem nodupB_add_to_groups (gs : List (String × List GitCommit)) (k : String) (c : GitCommit)
    (h : nodupB (gs.map (fun g => g.1)) = true) :
    nodupB ((add_to_groups gs k c).map (fun g => g.1)) = true := by
  unfold add_to_groups
  by_cases hany : gs.any (fun g => g.1 == k) = true
  · rw [if_pos hany]
    have : (gs.map (fun g => if g.1 = k then (g.1, g.2 ++ [c]) else g)).map (fun g => g.1) =
        gs.map (fun g => g.1) := by
      rw [List.map_map]
      apply List.map_congr_left
      intro g _
      by_cases hgk : g.1 = k <;> simp [hgk]
    rw [this]
    exact h
  · rw [if_neg hany, List.map_append]
    apply nodupB_append_single _ _ h
    rw [Bool.eq_false_iff]
    intro hcon
    apply hany
    rw [List.any_eq_true]
    have hk : ((k, [c]).1 : String) ∈ gs.map (fun g => g.1) := (containsB_iff _ _).mp hcon
    obtain ⟨g, hg, hfst⟩ := List.mem_map.mp hk
    exact ⟨g, hg, by rw [hfst]; simp⟩

/-- After `add_to_groups gs k c` there is a group keyed `k` containing `c`. -/
theorem mem_add_to_groups_self (gs : List (String × List GitCommit)) (k : String) (c : GitCommit) :
    ∃ g ∈ add_to_groups gs k c, g.1 = k ∧ c ∈ g.2 := by
  unfold add_to_groups
  by_cases hany : gs.any (fun g => g.1 == k) = true
  · rw [if_pos hany]
    obtain ⟨g₀, hg₀, hkey⟩ := List.any_eq_true.mp hany
    rw [beq_iff_eq] at hkey
    refine ⟨(g₀.1, g₀.2 ++ [c]), ?_, hkey, by simp⟩
    have : (g₀.1, g₀.2 ++ [c]) = (fun g => if g.1 = k then (g.1, g.2 ++ [c]) else g) g₀ := by
      simp [hkey]
    rw [this]
    exact List.mem_map_of_mem _ hg₀
  · rw [if_neg hany]
    exact ⟨(k, [c]), by simp, rfl, by simp⟩

/-- `add_to_groups` preserves every existing group's key and members. -/
theorem mem_add_to_groups_mono (gs : List (String × List GitCommit)) (k : String) (c : GitCommit)
    (g : String × List GitCommit) (hg : g ∈ gs) :
    ∃ g' ∈ add_to_groups gs k c, g'.1 = g.1 ∧ ∀ x ∈ g.2, x ∈ g'.2 := by
  unfold add_to_groups
  by_cases hany : gs.any (fun g => g.1 == k) = true
  · rw [if_pos hany]
    refine ⟨if g.1 = k then (g.1, g.2 ++ [c]) else g,
      List.mem_map_of_mem _ hg, ?_, ?_⟩
    · by_cases hgk : g.1 = k <;> simp [hgk]
    · intro x hx
      by_cases hgk : g.1 = k
      · rw [if_pos hgk]
        exact List.mem_append_left _ hx
      · rw [if_neg hgk]
        exact hx
  · rw [if_neg hany]
    exact ⟨g, List.mem_append_left _ hg, rfl, fun x hx => hx⟩

/-- Invariant of the group-building fold: keys stay unique, existing groups
survive (key and members preserved), and every processed commit lands in a
group keyed by its `commit_key`. -/
theorem build_groups_invariant (cs : List GitCommit) :
    ∀ (gs₀ : List (String × List GitCommit)),
      nodupB (gs₀.map (fun g => g.1)) = true →
      nodupB (((cs.foldl (fun gs c => add_to_groups gs (commit_key c) c) gs₀)).map
        (fun g => g.1)) = true ∧
      (∀ g ∈ gs₀, ∃ g' ∈ cs.foldl (fun gs c => add_to_groups gs (commit_key c) c) gs₀,
        g'.1 = g.1 ∧ ∀ x ∈ g.2, x ∈ g'.2) ∧
      (∀ c ∈ cs, ∃ g ∈ cs.foldl (fun gs c => add_to_groups gs (commit_key c) c) gs₀,
        g.1 = commit_key c ∧ c ∈ g.2) := by
  induction cs with
  | nil =>
      intro gs₀ hnd
      exact ⟨hnd, fun g hg => ⟨g, hg, rfl, fun x hx => hx⟩, by simp⟩
  | cons c cs ih =>
      intro gs₀ hnd
      have hnd₁ := nodupB_add_to_groups gs₀ (commit_key c) c hnd
      obtain ⟨ihnd, ihmono, ihmem⟩ := ih (add_to_groups gs₀ (commit_key c) c) hnd₁
      refine ⟨by simpa using ihnd, ?_, ?_⟩
      · intro g hg
        obtain ⟨g', hg', hk', hm'⟩ := mem_add_to_groups_mono gs₀ (commit_key c) c g hg
        obtain ⟨g'', hg'', hk'', hm''⟩ := ihmono g' hg'
        exact ⟨g'', by simpa using hg'', by rw [hk'', hk'], fun x hx => hm'' x (hm' x hx)⟩
      · intro c' hc'
        rcases List.mem_cons.mp hc' with hceq | hmem
        · subst hceq
          obtain ⟨g₁, hg₁, hk₁, hc₁⟩ := mem_add_to_groups_self gs₀ (commit_key c') c'
          obtain ⟨g'', hg'', hk'', hm''⟩ := ihmono g₁ hg₁
          exact ⟨g'', by simpa using hg'', by rw [hk'', hk₁], hm'' c' hc₁⟩
        · obtain ⟨g, hg, hk, hc⟩ := ihmem c' hmem
          exact ⟨g, by simpa using hg, hk, hc⟩

/-- With unique keys, two member groups sharing a key are the same group. -/
theorem group_eq_of_key_eq (gs : List (String × List GitCommit))
    (hnd : nodupB (gs.map (fun g => g.1)) = true)
    (g₁ g₂ : String × List GitCommit) (h₁ : g₁ ∈ gs) (h₂ : g₂ ∈ gs) (hk : g₁.1 = g₂.1) :
    g₁ = g₂ := by
  induction gs with
  | nil => cases h₁
  | cons a t ih =>
      simp only [List.map_cons, nodupB, Bool.and_eq_true, Bool.not_eq_true'] at hnd
      have hnotin : ∀ g ∈ t, g.1 ≠ a.1 := by
        intro g hg hgeq
        have : (t.map (fun g => g.1)).contains a.1 = true := by
          rw [containsB_iff]
          rw [← hgeq]
          exact List.mem_map_of_mem _ hg
        rw [hnd.1] at this
        cases this
      rcases List.mem_cons.mp h₁ with e₁ | m₁ <;> rcases List.mem_cons.mp h₂ with e₂ | m₂
      · rw [e₁, e₂]
      · subst e₁
        exact absurd hk.symm (hnotin g₂ m₂)
      · subst e₂
        exact absurd hk (hnotin g₁ m₁)
      · exact ih hnd.2 m₁ m₂

/-- C10: the grouping key is permutation-invariant — two commits of the same
input list whose keyword lists are non-empty permutations of each other get
the same `commit_key`, land in the same group, and (for lists long enough to
take the grouping path) the grouper emits exactly one entry per group. -/
theorem claim_C10 (cs : List GitCommit) (c₁ c₂ : GitCommit)
    (h₁ : c₁ ∈ cs) (h₂ : c₂ ∈ cs) (hlen : 2 ≤ cs.length)
    (hne : extract_keywords c₁.message ≠ [])
    (hperm : (extract_keywords c₁.message).Perm (extract_keywords c₂.message)) :
    commit_key c₁ = commit_key c₂ ∧
      (∃ g ∈ build_groups cs, c₁ ∈ g.2 ∧ c₂ ∈ g.2) ∧
      (merge_related_commits cs).length = (build_groups cs).length := by
  have hkey := commit_key_of_perm c₁ c₂ hne hperm
  obtain ⟨hnd, _, hmem⟩ := build_groups_invariant cs [] (by rfl)
  obtain ⟨g₁, hg₁, hk₁, hc₁⟩ := hmem c₁ h₁
  obtain ⟨g₂, hg₂, hk₂, hc₂⟩ := hmem c₂ h₂
  have hgeq : g₁ = g₂ := by
    apply group_eq_of_key_eq _ hnd g₁ g₂ hg₁ hg₂
    rw [hk₁, hk₂, hkey]
  refine ⟨hkey, ⟨g₁, hg₁, hc₁, by rw [hgeq]; exact hc₂⟩, ?_⟩
  match cs, hlen with
  | a :: b :: t, _ =>
      show ((build_groups (a :: b :: t)).map (fun g => group_entry g.2)).length = _
      rw [List.length_map]

/-- C10 (witness): `"feat: login add"` and `"feat: add login"` have
permutation-equal keyword lists and are grouped together. -/
theorem claim_C10_witness :
    commit_key ⟨"feat: login add", "feat", false, "p"⟩ =
        commit_key ⟨"feat: add login", "feat", false, "p"⟩ ∧
      (∃ g ∈ build_groups
          [⟨"feat: login add", "feat", false, "p"⟩, ⟨"feat: add login", "feat", false, "p"⟩],
        (⟨"feat: login add", "feat", false, "p"⟩ : GitCommit) ∈ g.2 ∧
          (⟨"feat: add login", "feat", false, "p"⟩ : GitCommit) ∈ g.2) ∧
      (merge_related_commits
          [⟨"feat: login add", "feat", false, "p"⟩, ⟨"feat: add login", "feat", false, "p"⟩]).length =
        (build_groups
          [⟨"feat: login add", "feat", false, "p"⟩, ⟨"feat: add login", "feat", false, "p"⟩]).length :=
  claim_C10
    [⟨"feat: login add", "feat", false, "p"⟩, ⟨"feat: add login", "feat", false, "p"⟩]
    ⟨"feat: login add", "feat", false, "p"⟩ ⟨"feat: add login", "feat", false, "p"⟩
    (by decide) (by decide) (by decide) (by decide) (by decide)

/-- `String.append` at the character level. -/
theorem strData_append (a b : String) : (a ++ b).data = a.data ++ b.data := by
  cases a
  cases b
  rfl

/-- Rebuilding a string from its characters is the identity. -/
theorem strMk_data (s : String) : (⟨s.data⟩ : String) = s := by
  cases s
  rfl

/-- `splitOnNL` never returns the empty list. -/
theorem splitOnNL_ne_nil (cs : List Char) : splitOnNL cs ≠ [] := by
  induction cs with
  | nil => simp [splitOnNL]
  | cons c t ih =>
      simp only [splitOnNL]
      by_cases h : c = '\n'
      · simp [h]
      · rw [if_neg h]
        cases ht : splitOnNL t with
        | nil => exact absurd ht ih
        | cons p ps => simp

/-- Splitting past a newline-free piece peels it off. -/
theorem splitOnNL_append (piece rest : List Char) (h : piece.all (fun c => c != '\n') = true) :
    splitOnNL (piece ++ '\n' :: rest) = piece :: splitOnNL rest := by
  induction piece with
  | nil =>
      show splitOnNL ('\n' :: rest) = [] :: splitOnNL rest
      simp [splitOnNL]
  | cons a t ih =>
      simp only [List.all_cons, Bool.and_eq_true, bne_iff_ne] at h
      have iht := ih h.2
      show splitOnNL (a :: (t ++ '\n' :: rest)) = (a :: t) :: splitOnNL rest
      simp only [splitOnNL, if_neg h.1, iht, List.modifyHead_cons]

/-- All pieces of `splitOnNL` are newline-free. -/
theorem splitOnNL_pieces_noNL (cs : List Char) :
    ∀ p ∈ splitOnNL cs, p.all (fun c => c != '\n') = true := by
  induction cs with
  | nil => simp [splitOnNL]
  | cons c t ih =>
      intro p hp
      simp only [splitOnNL] at hp
      obtain ⟨q, qs, hq⟩ := List.exists_cons_of_ne_nil (splitOnNL_ne_nil t)
      rw [hq] at hp
      by_cases hc : c = '\n'
      · rw [if_pos hc] at hp
        rcases List.mem_cons.mp hp with h | h
        · simp [h]
        · exact ih p (by rw [hq]; exact h)
      · rw [if_neg hc, List.modifyHead_cons] at hp
        rcases List.mem_cons.mp hp with h | h
        · subst h
          have hqmem := ih q (by rw [hq]; exact List.mem_cons_self q qs)
          simp only [List.all_cons, Bool.and_eq_true, bne_iff_ne]
          exact ⟨hc, by simpa [List.all_eq_true] using hqmem⟩
        · exact ih p (by rw [hq]; exact List.mem_cons_of_mem q h)

/-- All lines produced by `pySplitlines` are newline-free. -/
theorem pySplitlines_noNL (s : String) : ∀ l ∈ pySplitlines s, noNL l = true := by
  intro l hl
  unfold pySplitlines at hl
  dsimp only at hl
  rw [List.mem_map] at hl
  obtain ⟨p, hp, hmk⟩ := hl
  have hpmem : p ∈ splitOnNL s.data := by
    by_cases hlast : (splitOnNL s.data).getLast? = some []
    · rw [if_pos hlast] at hp
      exact List.dropLast_sublist _ |>.mem hp
    · rw [if_neg hlast] at hp
      exact hp
  have := splitOnNL_pieces_noNL s.data p hpmem
  rw [← hmk]
  exact this

/-- Joining newline-free lines and terminating with `"\n"` splits back to
exactly those lines. -/
theorem splitOnNL_joinNL (lines : List String) (hne : lines ≠ [])
    (h : ∀ l ∈ lines, noNL l = true) :
    splitOnNL ((joinNL lines).data ++ ['\n']) = lines.map (fun l => l.data) ++ [[]] := by
  induction lines with
  | nil => exact absurd rfl hne
  | cons x t ih =>
      cases t with
      | nil =>
          show splitOnNL (x.data ++ '\n' :: []) = [x.data] ++ [[]]
          rw [splitOnNL_append x.data [] (h x (List.mem_cons_self x []))]
          rfl
      | cons y t' =>
          have hx := h x (List.mem_cons_self x (y :: t'))
          have hrest : ∀ l ∈ y :: t', noNL l = true :=
            fun l hl => h l (List.mem_cons_of_mem x hl)
          show splitOnNL ((x ++ "\n" ++ joinNL (y :: t')).data ++ ['\n']) = _
          rw [strData_append, strData_append]
          have hx' : ("\n" : String).data = ['\n'] := rfl
          rw [hx']
          rw [List.append_assoc, List.append_assoc]
          rw [show (['\n'] : List Char) ++ ((joinNL (y :: t')).data ++ ['\n']) =
            '\n' :: ((joinNL (y :: t')).data ++ ['\n']) from rfl]
          rw [splitOnNL_append x.data _ hx]
          rw [ih (by simp) hrest]
          rfl

/-- `pySplitlines` is a left inverse of newline-terminated `joinNL` on
newline-free lines. -/
theorem pySplitlines_joinNL (lines : List String) (hne : lines ≠ [])
    (h : ∀ l ∈ lines, noNL l = true) :
    pySplitlines (joinNL lines ++ "\n") = lines := by
  unfold pySplitlines
  dsimp only
  rw [strData_append]
  rw [show ("\n" : String).data = ['\n'] from rfl]
  rw [splitOnNL_joinNL lines hne h]
  rw [List.getLast?_append_of_ne_nil _ (by simp)]
  simp only [List.getLast?_singleton, if_pos]
  rw [List.dropLast_append_of_ne_nil _ (by simp)]
  simp only [List.dropLast_single, List.append_nil]
  rw [List.map_map]
  have : ((fun p => (⟨p⟩ : String)) ∘ fun l : String => l.data) = id := by
    funext l
    exact strMk_data l
  rw [this, List.map_id]

/-- The empty render: `pySplitlines "\n" = [""]`. -/
theorem pySplitlines_newline : pySplitlines "\n" = [""] := by decide

/-- `strip()` gives the empty string exactly on all-whitespace input. -/
theorem stripCs_eq_nil_iff (l : List Char) :
    stripCs l = [] ↔ ∀ c ∈ l, isPyWS c = true := by
  unfold stripCs
  rw [List.rdropWhile_eq_nil_iff]
  constructor
  · intro h c hc
    have hsplit := List.takeWhile_append_dropWhile (p := isPyWS) (l := l)
    rw [← hsplit] at hc
    rcases List.mem_append.mp hc with hin | hin
    · exact List.mem_takeWhile_imp hin
    · exact h c hin
  · intro h c hc
    exact h c ((List.dropWhile_sublist isPyWS).mem hc)

/-- A line containing one non-whitespace character is not blank. -/
theorem blankLine_eq_false_of_mem (l : String) (c : Char)
    (hc : c ∈ l.data) (hw : isPyWS c = false) : blankLine l = false := by
  unfold blankLine
  rw [Bool.eq_false_iff]
  intro hcon
  rw [beq_iff_eq, stripCs_eq_nil_iff] at hcon
  rw [hcon c hc] at hw
  cases hw

/-- A non-empty stripped string is not blank. -/
theorem blankLine_eq_false_of_labelOk (l : String) (h : labelOkB l = true) :
    blankLine l = false := by
  simp only [labelOkB, strOkB, trimmedB, Bool.and_eq_true, Bool.not_eq_true',
    beq_iff_eq, beq_eq_false_iff_ne] at h
  unfold blankLine
  rw [Bool.eq_false_iff]
  intro hcon
  rw [beq_iff_eq] at hcon
  apply h.2
  have hdata : l.data = [] := by
    rw [← h.1.2]
    exact hcon
  cases l with
  | mk d =>
      have hd : d = [] := hdata
      rw [hd]

/-- A trimmed string does not start with a space (or any whitespace). -/
theorem pyStartsWith_space_of_trimmed (l : String)
    (ht : trimmedB l = true) : pyStartsWith l " " = false := by
  cases hd : l.data with
  | nil =>
      unfold pyStartsWith
      rw [hd]
      rfl
  | cons c rest =>
      have hhead : (stripCs l.data).head? = some c := by
        simp only [trimmedB, beq_iff_eq] at ht
        rw [ht, hd]
        rfl
      have hc := head_stripCs_not_ws l.data c hhead
      unfold pyStartsWith
      rw [hd]
      show ((' ' == c) && isPfx [] rest) = false
      have : (' ' == c) = false := by
        rw [beq_eq_false_iff_ne]
        intro he
        rw [← he] at hc
        cases hc
      rw [this]
      rfl

/-- A trimmed non-empty string whose first character is not `#` fails the
heading test. -/
theorem pyStartsWith_hash (l : String) (c : Char) (rest : List Char)
    (hd : l.data = c :: rest) : pyStartsWith l "#" = (c == '#') := by
  unfold pyStartsWith
  rw [hd]
  show (('#' == c) && isPfx [] rest) = (c == '#')
  rw [show isPfx [] rest = true from rfl, Bool.and_true]
  by_cases hc : c = '#'
  · rw [hc]
  · have h1 : ('#' == c) = false := beq_eq_false_iff_ne.mpr (fun he => hc he.symm)
    have h2 : (c == '#') = false := beq_eq_false_iff_ne.mpr hc
    rw [h1, h2]

/-- Characters of a rendered entry line. -/
theorem entryLine_data (s : String) :
    ("  - " ++ s).data = ' ' :: ' ' :: '-' :: ' ' :: s.data := by
  rw [strData_append]
  rfl

/-- Characters of a rendered detail line. -/
theorem detailLine_data (d : String) :
    ("    - " ++ d).data = ' ' :: ' ' :: ' ' :: ' ' :: '-' :: ' ' :: d.data := by
  rw [strData_append]
  rfl

/-- Evaluating one parser step on a blank line once sections have started. -/
theorem parseStep_blank (st : PState) (l : String) (hb : blankLine l = true)
    (hs : st.started = true) : parseStep st l = st := by
  unfold parseStep
  rw [if_pos hb, if_pos hs]

/-- Evaluating one parser step on a preamble line (blank or heading) before
any section has started. -/
theorem parseStep_pre (st : PState) (l : String)
    (hp : blankLine l = true ∨ pyStartsWith l "#" = true)
    (hs : st.started = false) : parseStep st l = { st with pre := st.pre ++ [l] } := by
  unfold parseStep
  rcases hp with hb | hh
  · rw [if_pos hb, if_neg (by rw [hs]; simp)]
  · by_cases hb : blankLine l = true
    · rw [if_pos hb, if_neg (by rw [hs]; simp)]
    · rw [if_neg hb, if_pos (by rw [hh, hs]; rfl)]

/-- Evaluating one parser step on a section label line. -/
theorem parseStep_label (st : PState) (l : String) (hl : labelOkB l = true)
    (hh : pyStartsWith l "#" = false ∨ st.started = true) :
    parseStep st l =
      { st with
        started := true
        cur := some l
        entryOpen := false
        secs := if st.secs.any (fun p => p.1 == l) then st.secs else st.secs ++ [(l, [])] } := by
  have htrim : trimmedB l = true := by
    simp only [labelOkB, strOkB, Bool.and_eq_true] at hl
    exact hl.1.2
  have hstrip : pyStrip l = l := by
    simp only [trimmedB, beq_iff_eq] at htrim
    rw [pyStrip, htrim, strMk_data]
  unfold parseStep
  rw [if_neg (by rw [blankLine_eq_false_of_labelOk l hl]; simp)]
  rw [if_neg (by
    rcases hh with hh | hh
    · rw [hh]
      simp
    · rw [hh]
      simp)]
  rw [if_pos (by rw [pyStartsWith_space_of_trimmed l htrim]; simp)]
  rw [hstrip]

/-- Evaluating one parser step on an entry bullet line under an open
section. -/
theorem parseStep_entry (st : PState) (c s : String)
    (hcur : st.cur = some c) (hs : trimmedB s = true) :
    parseStep st ("  - " ++ s) =
      { st with entryOpen := true, secs := appendEntry st.secs c ⟨s, []⟩ } := by
  have hblank : blankLine ("  - " ++ s) = false := by
    apply blankLine_eq_false_of_mem _ '-'
    · rw [entryLine_data]
      simp
    · rfl
  have hhash : pyStartsWith ("  - " ++ s) "#" = false := by
    unfold pyStartsWith
    rw [entryLine_data]
    rfl
  have hspace : pyStartsWith ("  - " ++ s) " " = true := by
    unfold pyStartsWith
    rw [entryLine_data]
    rfl
  have hbullet : pyStartsWith ("  - " ++ s) "  - " = true := by
    unfold pyStartsWith
    rw [entryLine_data]
    rfl
  have hsum : pyStrip (strDrop ("  - " ++ s) 4) = s := by
    unfold strDrop
    rw [entryLine_data]
    show pyStrip ⟨s.data⟩ = s
    simp only [trimmedB, beq_iff_eq] at hs
    rw [pyStrip, show (⟨s.data⟩ : String).data = s.data from rfl, hs, strMk_data]
  unfold parseStep
  rw [if_neg (by rw [hblank]; simp)]
  rw [if_neg (by rw [hhash]; simp)]
  rw [if_neg (by rw [hspace]; simp)]
  rw [if_pos (by rw [hbullet])]
  rw [hsum, hcur]

/-- Evaluating one parser step on a detail bullet line under an open entry. -/
theorem parseStep_detail (st : PState) (c d : String)
    (hcur : st.cur = some c) (hopen : st.entryOpen = true) (hd : trimmedB d = true) :
    parseStep st ("    - " ++ d) = { st with secs := appendDetail st.secs c d } := by
  have hblank : blankLine ("    - " ++ d) = false := by
    apply blankLine_eq_false_of_mem _ '-'
    · rw [detailLine_data]
      simp
    · rfl
  have hhash : pyStartsWith ("    - " ++ d) "#" = false := by
    unfold pyStartsWith
    rw [detailLine_data]
    rfl
  have hspace : pyStartsWith ("    - " ++ d) " " = true := by
    unfold pyStartsWith
    rw [detailLine_data]
    rfl
  have hbul2 : pyStartsWith ("    - " ++ d) "  - " = false := by
    unfold pyStartsWith
    rw [detailLine_data]
    rfl
  have hbul4 : pyStartsWith ("    - " ++ d) "    - " = true := by
    unfold pyStartsWith
    rw [detailLine_data]
    rfl
  have hdet : pyStrip (strDrop ("    - " ++ d) 6) = d := by
    unfold strDrop
    rw [detailLine_data]
    show pyStrip ⟨d.data⟩ = d
    simp only [trimmedB, beq_iff_eq] at hd
    rw [pyStrip, show (⟨d.data⟩ : String).data = d.data from rfl, hd, strMk_data]
  unfold parseStep
  rw [if_neg (by rw [hblank]; simp)]
  rw [if_neg (by rw [hhash]; simp)]
  rw [if_neg (by rw [hspace]; simp)]
  rw [if_neg (by rw [hbul2]; simp)]
  rw [if_pos (by rw [hbul4, hopen]; rfl)]
  rw [hdet, hcur]

/-- Appending a detail to the last entry of a non-empty entry list. -/
theorem updLastEntry_snoc (es : List ReportEntry) (s : String) (acc : List String) (d : String) :
    updLastEntry (es ++ [⟨s, acc⟩]) d = es ++ [⟨s, acc ++ [d]⟩] := by
  induction es with
  | nil => rfl
  | cons e es' ih =>
      cases es' with
      | nil => rfl
      | cons e' es'' =>
          show e :: updLastEntry ((e' :: es'') ++ [⟨s, acc⟩]) d = _
          rw [ih]
          rfl

/-- A key absent from the prefix makes the assoc-list `any` test fail there. -/
theorem any_key_eq_false (A : RSections) (k : String)
    (hA : A.all (fun q => !(q.1 == k)) = true) :
    A.any (fun q => q.1 == k) = false := by
  rw [Bool.eq_false_iff]
  intro hcon
  obtain ⟨q, hq, hqk⟩ := List.any_eq_true.mp hcon
  rw [List.all_eq_true] at hA
  have := hA q hq
  rw [hqk] at this
  cases this

/-- `appendEntry` at the trailing section. -/
theorem appendEntry_snoc (A : RSections) (label : String) (es : List ReportEntry)
    (e : ReportEntry) (hA : A.all (fun q => !(q.1 == label)) = true) :
    appendEntry (A ++ [(label, es)]) label e = A ++ [(label, es ++ [e])] := by
  unfold appendEntry
  rw [List.map_append]
  congr 1
  · have hfix : ∀ p ∈ A, (if p.1 = label then (p.1, p.2 ++ [e]) else p) = id p := by
      intro p hp
      rw [List.all_eq_true] at hA
      have := hA p hp
      rw [if_neg]
      · rfl
      · intro hcon
        rw [hcon] at this
        simp at this
    rw [List.map_congr_left hfix, List.map_id]
  · simp

/-- `appendDetail` at the trailing section. -/
theorem appendDetail_snoc (A : RSections) (label : String) (es : List ReportEntry)
    (s : String) (acc : List String) (d : String)
    (hA : A.all (fun q => !(q.1 == label)) = true) :
    appendDetail (A ++ [(label, es ++ [⟨s, acc⟩])]) label d =
      A ++ [(label, es ++ [⟨s, acc ++ [d]⟩])] := by
  unfold appendDetail
  rw [List.map_append]
  congr 1
  · have hfix : ∀ p ∈ A, (if p.1 = label then (p.1, updLastEntry p.2 d) else p) = id p := by
      intro p hp
      rw [List.all_eq_true] at hA
      have := hA p hp
      rw [if_neg]
      · rfl
      · intro hcon
        rw [hcon] at this
        simp at this
    rw [List.map_congr_left hfix, List.map_id]
  · simp [updLastEntry_snoc]

/-- Folding blank lines never changes the sections or the started flag, and
is the identity once sections have started. -/
theorem fold_blanks (bl : List String) :
    ∀ st : PState, (∀ x ∈ bl, blankLine x = true) →
      (bl.foldl parseStep st).secs = st.secs ∧
        (bl.foldl parseStep st).started = st.started ∧
        (st.started = true → bl.foldl parseStep st = st) := by
  induction bl with
  | nil => exact fun st _ => ⟨rfl, rfl, fun _ => rfl⟩
  | cons x bl' ih =>
      intro st hbl
      have hx := hbl x (List.mem_cons_self x bl')
      have hrest : ∀ y ∈ bl', blankLine y = true := fun y hy => hbl y (List.mem_cons_of_mem x hy)
      rw [List.foldl_cons]
      by_cases hs : st.started = true
      · rw [parseStep_blank st x hx hs]
        obtain ⟨h1, h2, h3⟩ := ih st hrest
        exact ⟨h1, h2, fun _ => h3 hs⟩
      · have hstep : parseStep st x = { st with pre := st.pre ++ [x] } := by
          unfold parseStep
          rw [if_pos hx, if_neg hs]
        rw [hstep]
        obtain ⟨h1, h2, h3⟩ := ih { st with pre := st.pre ++ [x] } hrest
        exact ⟨h1, h2, fun hcon => absurd hcon hs⟩

/-- The preamble phase: heading and blank lines accumulate verbatim while no
section has started. -/
theorem fold_pre (ls : List String) :
    ∀ p₀ : List String, (∀ l ∈ ls, blankLine l = true ∨ pyStartsWith l "#" = true) →
      ls.foldl parseStep ⟨p₀, [], none, false, false⟩ = ⟨p₀ ++ ls, [], none, false, false⟩ := by
  induction ls with
  | nil => intro p₀ _; simp
  | cons x ls' ih =>
      intro p₀ h
      have hx := h x (List.mem_cons_self x ls')
      show ls'.foldl parseStep (parseStep ⟨p₀, [], none, false, false⟩ x) = _
      rw [parseStep_pre _ x hx rfl]
      show ls'.foldl parseStep ⟨p₀ ++ [x], [], none, false, false⟩ = _
      rw [ih (p₀ ++ [x]) (fun l hl => h l (List.mem_cons_of_mem x hl))]
      simp

/-- Folding the rendered detail lines of one entry accumulates the details in
order onto the open entry. -/
theorem fold_details (ds : List String) :
    ∀ (acc : List String) (pre : List String) (A : RSections) (label : String)
      (es : List ReportEntry) (s : String),
      (∀ d ∈ ds, trimmedB d = true) →
      A.all (fun q => !(q.1 == label)) = true →
      (ds.map (fun d => "    - " ++ d)).foldl parseStep
          ⟨pre, A ++ [(label, es ++ [⟨s, acc⟩])], some label, true, true⟩ =
        ⟨pre, A ++ [(label, es ++ [⟨s, acc ++ ds⟩])], some label, true, true⟩ := by
  induction ds with
  | nil =>
      intro acc pre A label es s _ _
      simp
  | cons d ds' ih =>
      intro acc pre A label es s hds hA
      rw [List.map_cons, List.foldl_cons]
      rw [parseStep_detail _ label d rfl rfl (hds d (List.mem_cons_self d ds'))]
      show (ds'.map (fun d => "    - " ++ d)).foldl parseStep
        ⟨pre, appendDetail (A ++ [(label, es ++ [⟨s, acc⟩])]) label d, some label, true, true⟩ = _
      rw [appendDetail_snoc A label es s acc d hA]
      rw [ih (acc ++ [d]) pre A label es s (fun x hx => hds x (List.mem_cons_of_mem d hx)) hA]
      rw [List.append_assoc]
      rfl

/-- Folding the rendered lines of one entry appends exactly that entry. -/
theorem fold_entry (e : ReportEntry) (pre : List String) (A : RSections) (label : String)
    (es : List ReportEntry) (b : Bool)
    (he : entryOkB e = true) (hA : A.all (fun q => !(q.1 == label)) = true) :
    (entryLines e).foldl parseStep ⟨pre, A ++ [(label, es)], some label, b, true⟩ =
      ⟨pre, A ++ [(label, es ++ [e])], some label, true, true⟩ := by
  have hsum : trimmedB e.summary = true := by
    simp only [entryOkB, strOkB, Bool.and_eq_true] at he
    exact he.1.2
  have hdet : ∀ d ∈ e.details, trimmedB d = true := by
    intro d hd
    simp only [entryOkB, strOkB, Bool.and_eq_true, List.all_eq_true] at he
    exact (he.2 d hd).2
  unfold entryLines
  rw [List.foldl_cons, parseStep_entry _ label e.summary rfl hsum]
  show (e.details.map (fun d => "    - " ++ d)).foldl parseStep
    ⟨pre, appendEntry (A ++ [(label, es)]) label ⟨e.summary, []⟩, some label, true, true⟩ = _
  rw [appendEntry_snoc A label es ⟨e.summary, []⟩ hA]
  rw [fold_details e.details [] pre A label es e.summary hdet hA]
  show (⟨pre, A ++ [(label, es ++ [⟨e.summary, e.details⟩])], some label, true, true⟩ : PState) = _
  cases e
  rfl

/-- Folding the rendered lines of an entry list appends exactly those
entries. -/
theorem fold_entries (es' : List ReportEntry) :
    ∀ (es : List ReportEntry) (b : Bool) (pre : List String) (A : RSections) (label : String),
      (∀ e ∈ es', entryOkB e = true) →
      A.all (fun q => !(q.1 == label)) = true →
      ∃ b', (es'.flatMap entryLines).foldl parseStep
          ⟨pre, A ++ [(label, es)], some label, b, true⟩ =
        ⟨pre, A ++ [(label, es ++ es')], some label, b', true⟩ := by
  induction es' with
  | nil =>
      intro es b pre A label _ _
      exact ⟨b, by simp⟩
  | cons e rest ih =>
      intro es b pre A label hok hA
      rw [List.flatMap_cons, List.foldl_append]
      rw [fold_entry e pre A label es b (hok e (List.mem_cons_self e rest)) hA]
      obtain ⟨b', hb'⟩ := ih (es ++ [e]) true pre A label
        (fun x hx => hok x (List.mem_cons_of_mem e hx)) hA
      refine ⟨b', ?_⟩
      rw [hb', List.append_assoc]
      rfl

/-- Folding the rendered lines of a section list appends exactly those
sections. -/
theorem fold_sections (S : RSections) :
    ∀ (pre : List String) (A : RSections) (cur₀ : Option String) (b₀ st₀ : Bool),
      S.all (fun q => labelOkB q.1 && q.2.all entryOkB) = true →
      (∀ q ∈ S, A.all (fun r => !(r.1 == q.1)) = true) →
      nodupB (S.map (fun q => q.1)) = true →
      (st₀ = true ∨ (match S.head? with
        | some q => pyStartsWith q.1 "#" = false
        | none => True)) →
      ∃ cur' b' st', (S.flatMap sectionLines).foldl parseStep ⟨pre, A, cur₀, b₀, st₀⟩ =
          ⟨pre, A ++ S, cur', b', st'⟩ ∧ (S = [] → st' = st₀ ∧ cur' = cur₀ ∧ b' = b₀) ∧
            (S ≠ [] → st' = true) := by
  induction S with
  | nil =>
      intro pre A cur₀ b₀ st₀ _ _ _ _
      exact ⟨cur₀, b₀, st₀, by simp, fun _ => ⟨rfl, rfl, rfl⟩, fun h => absurd rfl h⟩
  | cons p S' ih =>
      intro pre A cur₀ b₀ st₀ hwf hfresh hnodup hhash
      obtain ⟨label, es⟩ := p
      have hlwf : labelOkB label = true ∧ es.all entryOkB = true := by
        have := (List.all_eq_true.mp hwf) (label, es) (List.mem_cons_self _ _)
        simpa using this
      have hAfresh : A.all (fun r => !(r.1 == label)) = true :=
        hfresh (label, es) (List.mem_cons_self _ _)
      have hblock : (sectionLines (label, es)).foldl parseStep ⟨pre, A, cur₀, b₀, st₀⟩ =
          ((es.flatMap entryLines ++ [""])).foldl parseStep
            ⟨pre, A ++ [(label, [])], some label, false, true⟩ := by
        unfold sectionLines
        rw [List.cons_append, List.foldl_cons]
        rw [parseStep_label _ label hlwf.1 (by
          rcases hhash with h | h
          · right; exact h
          · left; exact h)]
        rw [any_key_eq_false A label hAfresh]
        rw [if_neg (by simp)]
      obtain ⟨b', hb'⟩ := fold_entries es [] false pre A label
        (by intro e he; exact (List.all_eq_true.mp hlwf.2) e he) hAfresh
      rw [show ([] : List ReportEntry) ++ es = es from rfl] at hb'
      have hblock2 : (sectionLines (label, es)).foldl parseStep ⟨pre, A, cur₀, b₀, st₀⟩ =
          ⟨pre, A ++ [(label, es)], some label, b', true⟩ := by
        rw [hblock, List.foldl_append, hb', List.foldl_cons,
          parseStep_blank _ "" rfl rfl]
        rfl
      have hfresh' : ∀ q ∈ S', (A ++ [(label, es)]).all (fun r => !(r.1 == q.1)) = true := by
        intro q hq
        rw [List.all_eq_true]
        intro r hr
        rcases List.mem_append.mp hr with hrA | hrL
        · exact (List.all_eq_true.mp (hfresh q (List.mem_cons_of_mem _ hq))) r hrA
        · simp only [List.mem_singleton] at hrL
          subst hrL
          simp only [Bool.not_eq_true', beq_eq_false_iff_ne]
          intro hcon
          simp only [List.map_cons, nodupB, Bool.and_eq_true, Bool.not_eq_true'] at hnodup
          have : ((S'.map (fun q => q.1)).contains label) = true := by
            rw [containsB_iff]
            rw [hcon]
            exact List.mem_map_of_mem _ hq
          rw [hnodup.1] at this
          cases this
      have hnodup' : nodupB (S'.map (fun q => q.1)) = true := by
        simp only [List.map_cons, nodupB, Bool.and_eq_true] at hnodup
        exact hnodup.2
      have hwf' : S'.all (fun q => labelOkB q.1 && q.2.all entryOkB) = true := by
        simp only [List.all_cons, Bool.and_eq_true] at hwf
        exact hwf.2
      obtain ⟨cur', b'', st', hfold, hS'nil, hS'cons⟩ :=
        ih pre (A ++ [(label, es)]) (some label) b' true hwf' hfresh' hnodup' (Or.inl rfl)
      have hst' : st' = true := by
        rcases S' with _ | ⟨q, S''⟩
        · exact (hS'nil rfl).1
        · exact hS'cons (by simp)
      refine ⟨cur', b'', st', ?_, fun hcon => absurd hcon (by simp), fun _ => hst'⟩
      rw [List.flatMap_cons, List.foldl_append, hblock2, hfold, List.append_assoc]
      rfl

/-- Dropping trailing blanks splits the line list into a kept prefix and an
all-blank suffix. -/
theorem popBlanks_decomp (l : List String) :
    ∃ bl, l = popBlanks l ++ bl ∧ ∀ x ∈ bl, blankLine x = true := by
  refine ⟨(l.reverse.takeWhile blankLine).reverse, ?_, ?_⟩
  · unfold popBlanks List.rdropWhile
    conv_lhs => rw [← List.reverse_reverse l]
    conv_lhs => rw [← List.takeWhile_append_dropWhile (p := blankLine) (l := l.reverse)]
    rw [List.reverse_append]
  · intro x hx
    rw [List.mem_reverse] at hx
    exact List.mem_takeWhile_imp hx

/-- `popBlanks` output has no trailing blank and is blank-free iff empty. -/
theorem popBlanks_eq_nil_iff (l : List String) :
    popBlanks l = [] ↔ ∀ x ∈ l, blankLine x = true :=
  List.rdropWhile_eq_nil_iff

/-- Newlines distribute over string append. -/
theorem noNL_append (a b : String) : noNL (a ++ b) = (noNL a && noNL b) := by
  unfold noNL
  rw [strData_append, List.all_append]

/-- Every line of the rendered body is newline-free, given well-formed
sections. -/
theorem renderBody_noNL (S : RSections)
    (hS : S.all (fun p => labelOkB p.1 && p.2.all entryOkB) = true) :
    ∀ l ∈ renderBody S, noNL l = true := by
  intro l hl
  unfold renderBody at hl
  rw [List.mem_flatMap] at hl
  obtain ⟨p, hp, hlp⟩ := hl
  have hpwf := (List.all_eq_true.mp hS) p hp
  rw [Bool.and_eq_true] at hpwf
  unfold sectionLines at hlp
  rw [List.cons_append, List.mem_cons] at hlp
  rcases hlp with hlab | hrest
  · subst hlab
    simp only [labelOkB, strOkB, Bool.and_eq_true] at hpwf
    exact hpwf.1.1.1
  · rw [List.mem_append] at hrest
    rcases hrest with hent | hsep
    · rw [List.mem_flatMap] at hent
      obtain ⟨e, he, hle⟩ := hent
      have hewf := (List.all_eq_true.mp hpwf.2) e he
      simp only [entryOkB, strOkB, Bool.and_eq_true, List.all_eq_true] at hewf
      unfold entryLines at hle
      rw [List.mem_cons] at hle
      rcases hle with hsum | hdet
      · subst hsum
        rw [noNL_append, hewf.1.1]
        rfl
      · rw [List.mem_map] at hdet
        obtain ⟨d, hd, hld⟩ := hdet
        subst hld
        rw [noNL_append, (hewf.2 d hd).1]
        rfl
    · simp only [List.mem_singleton] at hsep
      subst hsep
      rfl

/-- Every line the renderer emits is newline-free. -/
theorem renderLines_noNL (pre : List String) (S : RSections)
    (hpre : preOkB pre = true)
    (hS : S.all (fun p => labelOkB p.1 && p.2.all entryOkB) = true) :
    ∀ l ∈ renderLines pre S, noNL l = true := by
  intro l hl
  unfold renderLines popBlanks at hl
  have hl' : l ∈ renderPre pre ++ renderBody S :=
    (List.rdropWhile_prefix blankLine _).sublist.mem hl
  rw [List.mem_append] at hl'
  rcases hl' with hbase | hbody
  · unfold renderPre at hbase
    split at hbase
    · cases hbase
    · rw [List.mem_append] at hbase
      rcases hbase with hm | hm
      · exact ((Bool.and_eq_true _ _).mp ((List.all_eq_true.mp hpre) l hm)).1
      · split at hm
        · cases hm
        · simp only [List.mem_singleton] at hm
          subst hm
          rfl
  · exact renderBody_noNL S hS l hbody

/-- The preamble block consists of blank lines and heading lines. -/
theorem renderPre_shape (pre : List String) (hpre : preOkB pre = true) :
    ∀ l ∈ renderPre pre, blankLine l = true ∨ pyStartsWith l "#" = true := by
  intro l hl
  unfold renderPre at hl
  split at hl
  · cases hl
  · rw [List.mem_append] at hl
    rcases hl with hm | hm
    · have := (List.all_eq_true.mp hpre) l hm
      rw [Bool.and_eq_true, Bool.or_eq_true] at this
      exact this.2
    · split at hm
      · cases hm
      · simp only [List.mem_singleton] at hm
        subst hm
        left
        rfl

/-- A non-empty section list leaves at least its first label in the rendered
line list. -/
theorem renderLines_ne_nil (pre : List String) (S : RSections) (q : String × List ReportEntry)
    (hhead : S.head? = some q) (hq : labelOkB q.1 = true) :
    renderLines pre S ≠ [] := by
  intro hcon
  unfold renderLines at hcon
  rw [popBlanks_eq_nil_iff] at hcon
  have hmem : q.1 ∈ renderPre pre ++ renderBody S := by
    rw [List.mem_append]
    right
    unfold renderBody
    rw [List.mem_flatMap]
    refine ⟨q, ?_, ?_⟩
    · cases S with
      | nil => cases hhead
      | cons p S' =>
          cases hhead
          exact List.mem_cons_self _ _
    · unfold sectionLines
      rw [List.cons_append]
      exact List.mem_cons_self _ _
  have := hcon q.1 hmem
  rw [blankLine_eq_false_of_labelOk q.1 hq] at this
  cases this

/-- Parsing what the renderer produced reconstructs the sections exactly; for
a non-empty section list the whole parse result is the preamble block plus
those sections. -/
theorem parse_render_report (pre : List String) (S : RSections)
    (hpre : preOkB pre = true) (hS : sectionsOkB S = true) :
    (parse_report_markdown (render_report_markdown pre S)).2 = S ∧
      (S ≠ [] → parse_report_markdown (render_report_markdown pre S) = (renderPre pre, S)) := by
  have hS' := hS
  simp only [sectionsOkB, Bool.and_eq_true] at hS'
  obtain ⟨⟨hwf, hnodup⟩, hhead⟩ := hS'
  by_cases hRL : renderLines pre S = []
  · have hSnil : S = [] := by
      by_contra hne
      obtain ⟨q, S', hq⟩ := List.exists_cons_of_ne_nil hne
      have hqwf : labelOkB q.1 = true := by
        have := (List.all_eq_true.mp hwf) q (by rw [hq]; exact List.mem_cons_self _ _)
        rw [Bool.and_eq_true] at this
        exact this.1
      exact renderLines_ne_nil pre S q (by rw [hq]; rfl) hqwf hRL
    subst hSnil
    have htext : render_report_markdown pre [] = "\n" := by
      unfold render_report_markdown
      rw [hRL]
      rfl
    rw [htext]
    exact ⟨by decide, fun h => absurd rfl h⟩
  · have hnoNL := renderLines_noNL pre S hpre hwf
    have hsplit : pySplitlines (render_report_markdown pre S) = renderLines pre S := by
      unfold render_report_markdown
      exact pySplitlines_joinNL _ hRL hnoNL
    have hbase : (renderPre pre).foldl parseStep initPState =
        ⟨renderPre pre, [], none, false, false⟩ := by
      have := fold_pre (renderPre pre) [] (renderPre_shape pre hpre)
      simpa using this
    obtain ⟨cur', b', st', hfoldS, hSnil, hSne⟩ :=
      fold_sections S (renderPre pre) [] none false false hwf
        (fun q _ => rfl) hnodup
        (by
          right
          cases hh : S.head? with
          | none => trivial
          | some q =>
              cases S with
              | nil => cases hh
              | cons p S' =>
                  cases hh
                  simpa using hhead)
    have hfull : (renderPre pre ++ renderBody S).foldl parseStep initPState =
        ⟨renderPre pre, S, cur', b', st'⟩ := by
      rw [List.foldl_append, hbase]
      unfold renderBody
      rw [hfoldS]
      simp
    obtain ⟨bl, hdecomp, hblank⟩ := popBlanks_decomp (renderPre pre ++ renderBody S)
    have hfull2 : (bl.foldl parseStep ((renderLines pre S).foldl parseStep initPState)) =
        ⟨renderPre pre, S, cur', b', st'⟩ := by
      rw [← List.foldl_append]
      rw [show renderLines pre S = popBlanks (renderPre pre ++ renderBody S) from rfl]
      rw [← hdecomp]
      exact hfull
    obtain ⟨hsecs, hstarted, hid⟩ := fold_blanks bl
      ((renderLines pre S).foldl parseStep initPState) hblank
    constructor
    · show (parseLinesSt (pySplitlines (render_report_markdown pre S))).secs = S
      rw [hsplit]
      unfold parseLinesSt
      rw [← hsecs, hfull2]
    · intro hSne'
      have hst' : st' = true := hSne hSne'
      have hstart2 : ((renderLines pre S).foldl parseStep initPState).started = true := by
        rw [← hstarted, hfull2, hst']
      have hide := hid hstart2
      rw [hide] at hfull2
      show ((parseLinesSt (pySplitlines (render_report_markdown pre S))).pre,
        (parseLinesSt (pySplitlines (render_report_markdown pre S))).secs) = _
      rw [hsplit]
      unfold parseLinesSt
      rw [hfull2, hst']

/-- Stripping preserves newline-freedom. -/
theorem noNL_pyStrip (s : String) (h : noNL s = true) : noNL (pyStrip s) = true := by
  unfold noNL pyStrip at *
  rw [List.all_eq_true] at h ⊢
  intro c hc
  apply h
  have h1 : c ∈ s.data.dropWhile isPyWS :=
    (List.rdropWhile_prefix isPyWS _).sublist.mem hc
  exact (List.dropWhile_sublist isPyWS).mem h1

/-- The result of `strip()` is trimmed. -/
theorem trimmedB_pyStrip (s : String) : trimmedB (pyStrip s) = true := by
  unfold trimmedB pyStrip
  rw [beq_iff_eq]
  exact stripCs_idem s.data

/-- The stripped string of a non-blank line is a valid section label. -/
theorem labelOkB_pyStrip (l : String) (hnl : noNL l = true) (hb : blankLine l = false) :
    labelOkB (pyStrip l) = true := by
  unfold labelOkB strOkB
  rw [noNL_pyStrip l hnl, trimmedB_pyStrip l]
  simp only [Bool.true_and, Bool.not_eq_true', beq_eq_false_iff_ne]
  intro hcon
  unfold blankLine at hb
  rw [Bool.eq_false_iff] at hb
  apply hb
  rw [beq_iff_eq]
  have : (pyStrip l).data = stripCs l.data := rfl
  rw [hcon] at this
  exact this.symm

/-- `appendEntry` preserves section well-formedness when the new entry is
well-formed. -/
theorem appendEntry_wf (secs : RSections) (c : String) (e : ReportEntry)
    (hS : secs.all (fun p => labelOkB p.1 && p.2.all entryOkB) = true)
    (he : entryOkB e = true) :
    (appendEntry secs c e).all (fun p => labelOkB p.1 && p.2.all entryOkB) = true := by
  unfold appendEntry
  rw [List.all_eq_true]
  intro p hp
  rw [List.mem_map] at hp
  obtain ⟨q, hq, hqe⟩ := hp
  have hqwf := (List.all_eq_true.mp hS) q hq
  rw [Bool.and_eq_true] at hqwf
  by_cases hqc : q.1 = c
  · rw [if_pos hqc] at hqe
    subst hqe
    rw [Bool.and_eq_true]
    refine ⟨hqwf.1, ?_⟩
    rw [List.all_eq_true]
    intro x hx
    rw [List.mem_append] at hx
    rcases hx with hx | hx
    · exact (List.all_eq_true.mp hqwf.2) x hx
    · simp only [List.mem_singleton] at hx
      subst hx
      exact he
  · rw [if_neg hqc] at hqe
    subst hqe
    rw [Bool.and_eq_true]
    exact hqwf

/-- Appending a detail to the last entry preserves entry well-formedness. -/
theorem updLastEntry_wf (es : List ReportEntry) (d : String)
    (hes : es.all entryOkB = true) (hd : strOkB d = true) :
    (updLastEntry es d).all entryOkB = true := by
  induction es with
  | nil => rfl
  | cons e es' ih =>
      cases es' with
      | nil =>
          show ([⟨e.summary, e.details ++ [d]⟩] : List ReportEntry).all entryOkB = true
          simp only [List.all_cons, List.all_nil, Bool.and_true] at hes ⊢
          unfold entryOkB at hes ⊢
          rw [Bool.and_eq_true] at hes
          rw [Bool.and_eq_true, List.all_append]
          refine ⟨hes.1, ?_⟩
          rw [Bool.and_eq_true]
          refine ⟨hes.2, ?_⟩
          simp only [List.all_cons, List.all_nil, Bool.and_true]
          exact hd
      | cons e' es'' =>
          simp only [List.all_cons, Bool.and_eq_true] at hes
          show (e :: updLastEntry (e' :: es'') d).all entryOkB = true
          simp only [List.all_cons, Bool.and_eq_true]
          refine ⟨hes.1, ?_⟩
          have := ih (by simp only [List.all_cons, Bool.and_eq_true]; exact hes.2)
          exact this

/-- `appendDetail` preserves section well-formedness. -/
theorem appendDetail_wf (secs : RSections) (c d : String)
    (hS : secs.all (fun p => labelOkB p.1 && p.2.all entryOkB) = true)
    (hd : strOkB d = true) :
    (appendDetail secs c d).all (fun p => labelOkB p.1 && p.2.all entryOkB) = true := by
  unfold appendDetail
  rw [List.all_eq_true]
  intro p hp
  rw [List.mem_map] at hp
  obtain ⟨q, hq, hqe⟩ := hp
  have hqwf := (List.all_eq_true.mp hS) q hq
  rw [Bool.and_eq_true] at hqwf
  by_cases hqc : q.1 = c
  · rw [if_pos hqc] at hqe
    subst hqe
    rw [Bool.and_eq_true]
    exact ⟨hqwf.1, updLastEntry_wf q.2 d hqwf.2 hd⟩
  · rw [if_neg hqc] at hqe
    subst hqe
    rw [Bool.and_eq_true]
    exact hqwf

/-- `appendEntry` does not change the section labels. -/
theorem appendEntry_keys (secs : RSections) (c : String) (e : ReportEntry) :
    (appendEntry secs c e).map (fun p => p.1) = secs.map (fun p => p.1) := by
  unfold appendEntry
  rw [List.map_map]
  apply List.map_congr_left
  intro q _
  by_cases hqc : q.1 = c <;> simp [hqc]

/-- `appendDetail` does not change the section labels. -/
theorem appendDetail_keys (secs : RSections) (c d : String) :
    (appendDetail secs c d).map (fun p => p.1) = secs.map (fun p => p.1) := by
  unfold appendDetail
  rw [List.map_map]
  apply List.map_congr_left
  intro q _
  by_cases hqc : q.1 = c <;> simp [hqc]

/-- One parser step preserves the invariant on any newline-free line. -/
theorem parseStep_inv (st : PState) (l : String) (hnl : noNL l = true)
    (hinv : ParseInv st) : ParseInv (parseStep st l) := by
  obtain ⟨hwf, hnodup, hpre, hcurnil⟩ := hinv
  have hnld : ∀ n : Nat, noNL (strDrop l n) = true := by
    intro n
    unfold noNL at hnl
    unfold noNL strDrop
    rw [List.all_eq_true] at hnl ⊢
    intro c hc
    exact hnl c ((List.drop_sublist _ _).mem hc)
  have hstrok : ∀ n : Nat, strOkB (pyStrip (strDrop l n)) = true := by
    intro n
    unfold strOkB
    rw [trimmedB_pyStrip, noNL_pyStrip _ (hnld n)]
    rfl
  have hstrok0 : strOkB (pyStrip l) = true := by
    unfold strOkB
    rw [trimmedB_pyStrip, noNL_pyStrip _ hnl]
    rfl
  unfold parseStep
  by_cases h1 : blankLine l = true
  · rw [if_pos h1]
    by_cases hs : st.started = true
    · rw [if_pos hs]
      exact ⟨hwf, hnodup, hpre, hcurnil⟩
    · rw [if_neg hs]
      refine ⟨hwf, hnodup, ?_, hcurnil⟩
      unfold preOkB at hpre ⊢
      rw [List.all_append, hpre]
      simp [hnl, h1]
  · rw [if_neg h1]
    by_cases h2 : (pyStartsWith l "#" && !st.started) = true
    · rw [if_pos h2]
      refine ⟨hwf, hnodup, ?_, hcurnil⟩
      unfold preOkB at hpre ⊢
      rw [List.all_append, hpre]
      rw [Bool.and_eq_true] at h2
      simp [hnl, h2.1]
    · rw [if_neg h2]
      by_cases h3 : (!(pyStartsWith l " ")) = true
      · rw [if_pos h3]
        dsimp only
        have hlok : labelOkB (pyStrip l) = true :=
          labelOkB_pyStrip l hnl (by rw [Bool.eq_false_iff]; exact h1)
        refine ⟨?_, ?_, hpre, by intro hcon; cases hcon⟩
        · by_cases hany : st.secs.any (fun p => p.1 == pyStrip l) = true
          · rw [if_pos hany]
            exact hwf
          · rw [if_neg hany]
            rw [List.all_append, hwf]
            simp [hlok]
        · by_cases hany : st.secs.any (fun p => p.1 == pyStrip l) = true
          · rw [if_pos hany]
            exact hnodup
          · rw [if_neg hany]
            rw [List.map_append]
            apply nodupB_append_single _ _ hnodup
            rw [Bool.eq_false_iff]
            intro hcon
            apply hany
            rw [containsB_iff] at hcon
            obtain ⟨q, hq, hqk⟩ := List.mem_map.mp hcon
            rw [List.any_eq_true]
            exact ⟨q, hq, by rw [hqk]; simp⟩
      · rw [if_neg h3]
        by_cases h4 : pyStartsWith l "  - " = true
        · rw [if_pos h4]
          dsimp only
          cases hcur : st.cur with
          | none =>
              have hsecs : st.secs = [] := hcurnil hcur
              dsimp only
              refine ⟨?_, ?_, hpre, by intro hcon; cases hcon⟩
              · rw [hsecs]
                apply appendEntry_wf
                · decide
                · unfold entryOkB
                  rw [hstrok 4]
                  rfl
              · rw [hsecs]
                rw [show (([] : RSections) ++ [("其他", [])]) = [("其他", [])] from rfl]
                rw [appendEntry_keys]
                decide
          | some c =>
              dsimp only
              refine ⟨?_, ?_, hpre, by intro hcon; cases hcon⟩
              · apply appendEntry_wf _ _ _ hwf
                unfold entryOkB
                rw [hstrok 4]
                rfl
              · rw [appendEntry_keys]
                exact hnodup
        · rw [if_neg h4]
          by_cases h5 : (pyStartsWith l "    - " && st.entryOpen) = true
          · rw [if_pos h5]
            cases hcur : st.cur with
            | none => exact ⟨hwf, hnodup, hpre, hcurnil⟩
            | some c =>
                dsimp only
                refine ⟨?_, ?_, hpre, by intro hcon; cases hcon⟩
                · exact appendDetail_wf _ _ _ hwf (hstrok 6)
                · rw [appendDetail_keys]
                  exact hnodup
          · rw [if_neg h5]
            by_cases h6 : (st.entryOpen && pyStartsWith l " ") = true
            · rw [if_pos h6]
              cases hcur : st.cur with
              | none => exact ⟨hwf, hnodup, hpre, hcurnil⟩
              | some c =>
                  dsimp only
                  refine ⟨?_, ?_, hpre, by intro hcon; cases hcon⟩
                  · exact appendDetail_wf _ _ _ hwf hstrok0
                  · rw [appendDetail_keys]
                    exact hnodup
            · rw [if_neg h6]
              exact ⟨hwf, hnodup, hpre, hcurnil⟩

/-- The parser invariant holds after folding any newline-free lines. -/
theorem foldl_parseStep_inv (lines : List String) :
    ∀ st : PState, (∀ l ∈ lines, noNL l = true) → ParseInv st →
      ParseInv (lines.foldl parseStep st) := by
  induction lines with
  | nil => exact fun st _ h => h
  | cons x rest ih =>
      intro st hnl hinv
      rw [List.foldl_cons]
      exact ih _ (fun l hl => hnl l (List.mem_cons_of_mem x hl))
        (parseStep_inv st x (hnl x (List.mem_cons_self x rest)) hinv)

/-- Everything `_parse_report_markdown` returns is well-formed: valid unique
labels, stripped newline-free summaries and details, and a preamble of blank
or heading lines. -/
theorem parse_report_wf (t : String) :
    (parse_report_markdown t).2.all (fun p => labelOkB p.1 && p.2.all entryOkB) = true ∧
      nodupB ((parse_report_markdown t).2.map (fun p => p.1)) = true ∧
      preOkB (parse_report_markdown t).1 = true := by
  have hinv := foldl_parseStep_inv (pySplitlines t) initPState
    (pySplitlines_noNL t) ⟨rfl, rfl, rfl, fun _ => rfl⟩
  exact ⟨hinv.1, hinv.2.1, hinv.2.2.1⟩

/-- Every string emitted by the de-duplication loop is the strip of an input
string. -/
theorem dedupeAux_mem (l : List String) :
    ∀ (seen : List String) (x : String), x ∈ dedupeAux seen l → ∃ d ∈ l, x = pyStrip d := by
  induction l with
  | nil =>
      intro seen x hx
      cases hx
  | cons d ds ih =>
      intro seen x hx
      unfold dedupeAux at hx
      dsimp only at hx
      split at hx
      · obtain ⟨d', hd', hx'⟩ := ih seen x hx
        exact ⟨d', List.mem_cons_of_mem d hd', hx'⟩
      · rcases List.mem_cons.mp hx with hhead | htail
        · exact ⟨d, List.mem_cons_self d ds, hhead⟩
        · obtain ⟨d', hd', hx'⟩ := ih _ x htail
          exact ⟨d', List.mem_cons_of_mem d hd', hx'⟩

/-- The de-duplication loop emits only stripped, newline-free strings when
its input is newline-free. -/
theorem dedupe_strOk (l : List String) (hl : ∀ d ∈ l, noNL d = true) :
    (dedupe_preserve_order l).all strOkB = true := by
  rw [List.all_eq_true]
  intro x hx
  obtain ⟨d, hd, hxd⟩ := dedupeAux_mem l [] x hx
  subst hxd
  unfold strOkB
  rw [trimmedB_pyStrip, noNL_pyStrip _ (hl d hd)]
  rfl

/-- `updLastBySummary` keeps each entry's summary and only rewrites one
detail list with a de-duplication of well-formed strings. -/
theorem updLastBySummary_wf (es : List ReportEntry) (e : ReportEntry)
    (hes : es.all entryOkB = true) (he : entryOkB e = true) :
    (updLastBySummary es e).all entryOkB = true := by
  induction es with
  | nil => rfl
  | cons t ts ih =>
      simp only [List.all_cons, Bool.and_eq_true] at hes
      unfold updLastBySummary
      split
      · simp only [List.all_cons, Bool.and_eq_true]
        exact ⟨hes.1, ih hes.2⟩
      · split
        · simp only [List.all_cons, Bool.and_eq_true]
          refine ⟨?_, hes.2⟩
          unfold entryOkB at hes ⊢
          rw [Bool.and_eq_true] at hes
          rw [Bool.and_eq_true]
          refine ⟨hes.1.1, ?_⟩
          apply dedupe_strOk
          intro d hd
          rw [List.mem_append] at hd
          rcases hd with hd | hd
          · have := (List.all_eq_true.mp hes.1.2) d hd
            unfold strOkB at this
            rw [Bool.and_eq_true] at this
            exact this.1
          · have he' := he
            unfold entryOkB at he'
            rw [Bool.and_eq_true] at he'
            have := (List.all_eq_true.mp he'.2) d hd
            unfold strOkB at this
            rw [Bool.and_eq_true] at this
            exact this.1
        · simp only [List.all_cons, Bool.and_eq_true]
          exact ⟨hes.1, ih hes.2⟩

/-- Merging an entry list into another preserves entry well-formedness. -/
theorem mergeEntries_wf (incoming : List ReportEntry) :
    ∀ acc : List ReportEntry, acc.all entryOkB = true → incoming.all entryOkB = true →
      (mergeEntries acc incoming).all entryOkB = true := by
  induction incoming with
  | nil => exact fun acc h _ => h
  | cons e rest ih =>
      intro acc hacc hinc
      simp only [List.all_cons, Bool.and_eq_true] at hinc
      unfold mergeEntries
      rw [List.foldl_cons]
      have hstep : (mergeOneEntry acc e).all entryOkB = true := by
        unfold mergeOneEntry
        split
        · exact updLastBySummary_wf acc e hacc hinc.1
        · rw [List.all_append, hacc]
          simp [hinc.1]
      exact ih (mergeOneEntry acc e) hstep hinc.2

/-- `updLastBySummary` does not change the summary list. -/
theorem updLastBySummary_summaries (es : List ReportEntry) (e : ReportEntry) :
    (updLastBySummary es e).map (fun x => x.summary) = es.map (fun x => x.summary) := by
  induction es with
  | nil => rfl
  | cons t ts ih =>
      unfold updLastBySummary
      split
      · simp only [List.map_cons]
        rw [ih]
      · split
        · simp only [List.map_cons]
        · simp only [List.map_cons]
          rw [ih]

/-- Merging preserves per-section summary uniqueness of the accumulator. -/
theorem mergeEntries_uniq (incoming : List ReportEntry) :
    ∀ acc : List ReportEntry, nodupB (acc.map (fun x => x.summary)) = true →
      nodupB ((mergeEntries acc incoming).map (fun x => x.summary)) = true := by
  induction incoming with
  | nil => exact fun acc h => h
  | cons e rest ih =>
      intro acc hacc
      unfold mergeEntries
      rw [List.foldl_cons]
      apply ih
      unfold mergeOneEntry
      split
      · rw [updLastBySummary_summaries]
        exact hacc
      · rename_i hany
        rw [List.map_append]
        apply nodupB_append_single _ _ hacc
        rw [Bool.eq_false_iff]
        intro hcon
        apply hany
        rw [containsB_iff] at hcon
        obtain ⟨t, ht, htk⟩ := List.mem_map.mp hcon
        rw [List.any_eq_true]
        exact ⟨t, ht, by rw [htk]; simp⟩

/-- `_merge_sections` is the named fold followed by the final de-duplication
pass. -/
theorem merge_sections_eq (existing new : RSections) :
    merge_sections existing new = dedupAllSections (new.foldl mergeSecStep existing) := rfl

/-- Merging entries into one section leaves the label list unchanged. -/
theorem mergeUpd_keys (acc : RSections) (es : List ReportEntry) (k : String) :
    ((acc.map (fun q => if q.1 = k then (q.1, mergeEntries q.2 es) else q)).map
      (fun p => p.1)) = acc.map (fun p => p.1) := by
  rw [List.map_map]
  apply List.map_congr_left
  intro q _
  by_cases h : q.1 = k <;> simp [h]

/-- When no section carries the key, the key list does not contain it. -/
theorem keys_contains_eq_false (acc : RSections) (k : String)
    (h : acc.any (fun q => q.1 == k) = false) :
    (acc.map (fun p => p.1)).contains k = false := by
  rw [Bool.eq_false_iff]
  intro hc
  rw [containsB_iff] at hc
  obtain ⟨q, hq, hqk⟩ := List.mem_map.mp hc
  rw [Bool.eq_false_iff] at h
  apply h
  rw [List.any_eq_true]
  exact ⟨q, hq, by rw [hqk]; simp⟩

/-- The section-merging fold preserves label/entry well-formedness and label
uniqueness. -/
theorem foldl_mergeSecStep_wf (newS : RSections) :
    ∀ acc : RSections,
      acc.all (fun p => labelOkB p.1 && p.2.all entryOkB) = true →
      nodupB (acc.map (fun p => p.1)) = true →
      newS.all (fun p => labelOkB p.1 && p.2.all entryOkB) = true →
      (newS.foldl mergeSecStep acc).all (fun p => labelOkB p.1 && p.2.all entryOkB) = true ∧
        nodupB ((newS.foldl mergeSecStep acc).map (fun p => p.1)) = true := by
  induction newS with
  | nil => exact fun acc h1 h2 _ => ⟨h1, h2⟩
  | cons p rest ih =>
      intro acc hwf hnodup hnew
      simp only [List.all_cons, Bool.and_eq_true] at hnew
      rw [List.foldl_cons]
      apply ih _ _ _ hnew.2
      · unfold mergeSecStep
        split
        · rw [List.all_eq_true]
          intro x hx
          obtain ⟨q, hq, hxq⟩ := List.mem_map.mp hx
          subst hxq
          have hqwf := (List.all_eq_true.mp hwf) q hq
          by_cases hk : q.1 = p.1
          · rw [if_pos hk]
            rw [Bool.and_eq_true] at hqwf ⊢
            exact ⟨hqwf.1, mergeEntries_wf p.2 q.2 hqwf.2 hnew.1.2⟩
          · rw [if_neg hk]
            exact hqwf
        · rw [List.all_append, hwf]
          simp only [List.all_cons, List.all_nil, Bool.and_true, Bool.true_and]
          rw [Bool.and_eq_true]
          exact hnew.1
      · unfold mergeSecStep
        split
        · rw [mergeUpd_keys]
          exact hnodup
        · rename_i hany
          rw [List.map_append]
          exact nodupB_append_single _ _ hnodup
            (keys_contains_eq_false acc p.1 (by rw [Bool.eq_false_iff]; exact hany))

/-- The section-merging fold preserves per-section summary uniqueness. -/
theorem foldl_mergeSecStep_uniq (newS : RSections) :
    ∀ acc : RSections,
      uniqSummariesB acc = true →
      newS.all (fun p => nodupB (p.2.map (fun e => e.summary))) = true →
      uniqSummariesB (newS.foldl mergeSecStep acc) = true := by
  induction newS with
  | nil => exact fun acc h _ => h
  | cons p rest ih =>
      intro acc hacc hnew
      simp only [List.all_cons, Bool.and_eq_true] at hnew
      rw [List.foldl_cons]
      apply ih _ _ hnew.2
      unfold mergeSecStep
      split
      · unfold uniqSummariesB at hacc ⊢
        rw [List.all_eq_true]
        intro x hx
        obtain ⟨q, hq, hxq⟩ := List.mem_map.mp hx
        subst hxq
        have hquniq := (List.all_eq_true.mp hacc) q hq
        by_cases hk : q.1 = p.1
        · rw [if_pos hk]
          exact mergeEntries_uniq p.2 q.2 hquniq
        · rw [if_neg hk]
          exact hquniq
      · unfold uniqSummariesB at hacc ⊢
        rw [List.all_append, hacc]
        simp only [List.all_cons, List.all_nil, Bool.and_true, Bool.true_and]
        exact hnew.1

/-- The final de-duplication pass keeps labels, keeps summaries, and keeps
well-formedness (it can only replace detail lists with de-duplicated ones). -/
theorem dedupAllSections_keys (S : RSections) :
    (dedupAllSections S).map (fun p => p.1) = S.map (fun p => p.1) := by
  unfold dedupAllSections
  rw [List.map_map]
  rfl

/-- The final de-duplication pass preserves section well-formedness. -/
theorem dedupAllSections_wf (S : RSections)
    (h : S.all (fun p => labelOkB p.1 && p.2.all entryOkB) = true) :
    (dedupAllSections S).all (fun p => labelOkB p.1 && p.2.all entryOkB) = true := by
  unfold dedupAllSections
  rw [List.all_eq_true]
  intro x hx
  obtain ⟨q, hq, hxq⟩ := List.mem_map.mp hx
  subst hxq
  have hqwf := (List.all_eq_true.mp h) q hq
  dsimp only
  rw [Bool.and_eq_true] at hqwf ⊢
  refine ⟨hqwf.1, ?_⟩
  rw [List.all_eq_true]
  intro y hy
  obtain ⟨e, he, hye⟩ := List.mem_map.mp hy
  subst hye
  have hewf := (List.all_eq_true.mp hqwf.2) e he
  unfold entryOkB at hewf ⊢
  rw [Bool.and_eq_true] at hewf ⊢
  refine ⟨hewf.1, ?_⟩
  apply dedupe_strOk
  intro d hd
  have := (List.all_eq_true.mp hewf.2) d hd
  unfold strOkB at this
  rw [Bool.and_eq_true] at this
  exact this.1

/-- The final de-duplication pass preserves per-section summary uniqueness. -/
theorem dedupAllSections_uniq (S : RSections) (h : uniqSummariesB S = true) :
    uniqSummariesB (dedupAllSections S) = true := by
  unfold uniqSummariesB at h ⊢
  unfold dedupAllSections
  rw [List.all_eq_true]
  intro x hx
  obtain ⟨q, hq, hxq⟩ := List.mem_map.mp hx
  subst hxq
  have := (List.all_eq_true.mp h) q hq
  dsimp only
  rw [List.map_map]
  simpa [Function.comp] using this

/-- `_merge_sections` output is well-formed with unique labels when both
inputs are. -/
theorem merge_sections_wf (E N : RSections)
    (hE : E.all (fun p => labelOkB p.1 && p.2.all entryOkB) = true)
    (hEk : nodupB (E.map (fun p => p.1)) = true)
    (hN : N.all (fun p => labelOkB p.1 && p.2.all entryOkB) = true) :
    (merge_sections E N).all (fun p => labelOkB p.1 && p.2.all entryOkB) = true ∧
      nodupB ((merge_sections E N).map (fun p => p.1)) = true := by
  rw [merge_sections_eq]
  obtain ⟨h1, h2⟩ := foldl_mergeSecStep_wf N E hE hEk hN
  exact ⟨dedupAllSections_wf _ h1, by rw [dedupAllSections_keys]; exact h2⟩

/-- `_merge_sections` output has unique per-section summaries when both
inputs do. -/
theorem merge_sections_uniq (E N : RSections)
    (hE : uniqSummariesB E = true) (hN : uniqSummariesB N = true) :
    uniqSummariesB (merge_sections E N) = true := by
  rw [merge_sections_eq]
  exact dedupAllSections_uniq _ (foldl_mergeSecStep_uniq N E hE hN)

/-- The de-duplication loop skips an item whose key is empty or seen. -/
theorem dedupeAux_cons_skip (seen : List String) (d : String) (ds : List String)
    (h : pyStrip d = "" ∨ seen.contains (pyStrip d) = true) :
    dedupeAux seen (d :: ds) = dedupeAux seen ds := by
  show (if decide (pyStrip d = "") || seen.contains (pyStrip d) then dedupeAux seen ds
    else pyStrip d :: dedupeAux (pyStrip d :: seen) ds) = dedupeAux seen ds
  rw [if_pos]
  simp only [Bool.or_eq_true, decide_eq_true_eq]
  exact h

/-- The de-duplication loop emits the stripped item when its key is fresh. -/
theorem dedupeAux_cons_emit (seen : List String) (d : String) (ds : List String)
    (h1 : ¬ pyStrip d = "") (h2 : seen.contains (pyStrip d) = false) :
    dedupeAux seen (d :: ds) = pyStrip d :: dedupeAux (pyStrip d :: seen) ds := by
  show (if decide (pyStrip d = "") || seen.contains (pyStrip d) then dedupeAux seen ds
    else pyStrip d :: dedupeAux (pyStrip d :: seen) ds) = _
  rw [if_neg]
  simp only [Bool.or_eq_true, decide_eq_true_eq]
  rintro (h | h)
  · exact h1 h
  · rw [h2] at h
    exact Bool.noConfusion h

/-- The de-duplication loop distributes over append: the second half runs with
the keys emitted by the first half added to the seen set. -/
theorem dedupeAux_append (l₁ l₂ : List String) : ∀ seen : List String,
    dedupeAux seen (l₁ ++ l₂) =
      dedupeAux seen l₁ ++ dedupeAux ((dedupeAux seen l₁).reverse ++ seen) l₂ := by
  induction l₁ with
  | nil =>
      intro seen
      simp [dedupeAux]
  | cons d ds ih =>
      intro seen
      by_cases h1 : pyStrip d = ""
      · rw [List.cons_append, dedupeAux_cons_skip _ _ _ (Or.inl h1),
            dedupeAux_cons_skip _ _ _ (Or.inl h1), ih]
      · cases h2 : seen.contains (pyStrip d) with
        | true =>
            rw [List.cons_append, dedupeAux_cons_skip _ _ _ (Or.inr h2),
                dedupeAux_cons_skip _ _ _ (Or.inr h2), ih]
        | false =>
            rw [List.cons_append, dedupeAux_cons_emit _ _ _ h1 h2,
                dedupeAux_cons_emit _ _ _ h1 h2, ih, List.reverse_cons,
                List.append_assoc, List.singleton_append, List.cons_append]

/-- Every non-empty key of the input is in the seen set or in the output. -/
theorem dedupeAux_covers (l : List String) : ∀ (seen : List String) (d : String),
    d ∈ l → ¬ pyStrip d = "" → pyStrip d ∈ seen ∨ pyStrip d ∈ dedupeAux seen l := by
  induction l with
  | nil =>
      intro seen d hd
      cases hd
  | cons c cs ih =>
      intro seen d hd hne
      rcases List.mem_cons.mp hd with rfl | hd'
      · by_cases h2 : seen.contains (pyStrip d) = true
        · exact Or.inl ((containsB_iff _ _).mp h2)
        · right
          rw [dedupeAux_cons_emit _ _ _ hne (Bool.eq_false_iff.mpr h2)]
          exact List.mem_cons_self _ _
      · by_cases h1 : pyStrip c = ""
        · rw [dedupeAux_cons_skip _ _ _ (Or.inl h1)]
          exact ih seen d hd' hne
        · cases h2 : seen.contains (pyStrip c) with
          | true =>
              rw [dedupeAux_cons_skip _ _ _ (Or.inr h2)]
              exact ih seen d hd' hne
          | false =>
              rw [dedupeAux_cons_emit _ _ _ h1 h2]
              rcases ih (pyStrip c :: seen) d hd' hne with hmem | hmem
              · rcases List.mem_cons.mp hmem with he | hs
                · right
                  rw [he]
                  exact List.mem_cons_self _ _
                · exact Or.inl hs
              · exact Or.inr (List.mem_cons_of_mem _ hmem)

/-- The de-duplication loop emits nothing when every key is blank or seen. -/
theorem dedupeAux_eq_nil (l : List String) : ∀ seen : List String,
    (∀ d ∈ l, pyStrip d = "" ∨ seen.contains (pyStrip d) = true) →
    dedupeAux seen l = [] := by
  induction l with
  | nil => exact fun _ _ => rfl
  | cons c cs ih =>
      intro seen h
      rw [dedupeAux_cons_skip _ _ _ (h c (List.mem_cons_self c cs))]
      exact ih seen (fun d hd => h d (List.mem_cons_of_mem c hd))

/-- De-duplicating a doubled list gives the de-duplication of the list. -/
theorem dedupe_self_append (l : List String) :
    dedupe_preserve_order (l ++ l) = dedupe_preserve_order l := by
  unfold dedupe_preserve_order
  rw [dedupeAux_append]
  have h2 : dedupeAux ((dedupeAux [] l).reverse ++ []) l = [] := by
    apply dedupeAux_eq_nil
    intro d hd
    by_cases he : pyStrip d = ""
    · exact Or.inl he
    · right
      rcases dedupeAux_covers l [] d hd he with hmem | hmem
      · cases hmem
      · apply (containsB_iff _ _).mpr
        rw [List.append_nil, List.mem_reverse]
        exact hmem
  rw [h2, List.append_nil]

/-- Merging an entry that is already present, in a section with unique
normalized entries, changes nothing. -/
theorem updLastBySummary_self (es : List ReportEntry)
    (huniq : nodupB (es.map (fun e => e.summary)) = true)
    (hnorm : ∀ t ∈ es, dedupe_preserve_order (t.details ++ t.details) = t.details)
    (e : ReportEntry) (he : e ∈ es) :
    updLastBySummary es e = es := by
  induction es with
  | nil => cases he
  | cons t ts ih =>
      simp only [List.map_cons, nodupB, Bool.and_eq_true, Bool.not_eq_true'] at huniq
      unfold updLastBySummary
      by_cases hany : ts.any (fun x => x.summary == e.summary) = true
      · rw [if_pos hany]
        have he' : e ∈ ts := by
          rcases List.mem_cons.mp he with rfl | h
          · exfalso
            obtain ⟨x, hx, hxe⟩ := List.any_eq_true.mp hany
            rw [beq_iff_eq] at hxe
            have hc : (ts.map (fun y => y.summary)).contains e.summary = true :=
              (containsB_iff _ _).mpr (List.mem_map.mpr ⟨x, hx, hxe⟩)
            rw [huniq.1] at hc
            exact Bool.noConfusion hc
          · exact h
        rw [ih huniq.2 (fun t' ht' => hnorm t' (List.mem_cons_of_mem t ht')) he']
      · have het : e = t := by
          rcases List.mem_cons.mp he with rfl | h
          · rfl
          · exact absurd (List.any_eq_true.mpr ⟨e, h, by simp⟩) hany
        rw [if_neg hany]
        subst het
        rw [if_pos rfl, hnorm e (List.mem_cons_self _ _)]

/-- Folding entries that are all already present into a section with unique
normalized entries changes nothing. -/
theorem mergeEntries_self_aux (inc : List ReportEntry) (es : List ReportEntry)
    (huniq : nodupB (es.map (fun e => e.summary)) = true)
    (hnorm : ∀ t ∈ es, dedupe_preserve_order (t.details ++ t.details) = t.details)
    (hinc : ∀ e ∈ inc, e ∈ es) :
    inc.foldl mergeOneEntry es = es := by
  induction inc with
  | nil => rfl
  | cons e rest ih =>
      rw [List.foldl_cons]
      have hstep : mergeOneEntry es e = es := by
        unfold mergeOneEntry
        have he := hinc e (List.mem_cons_self _ _)
        rw [if_pos (List.any_eq_true.mpr ⟨e, he, by simp⟩)]
        exact updLastBySummary_self es huniq hnorm e he
      rw [hstep]
      exact ih (fun x hx => hinc x (List.mem_cons_of_mem e hx))

/-- Merging a section's entry list with itself changes nothing when its
summaries are unique and its details are in de-duplicated normal form. -/
theorem mergeEntries_self (es : List ReportEntry)
    (huniq : nodupB (es.map (fun e => e.summary)) = true)
    (hnorm : ∀ t ∈ es, dedupe_preserve_order (t.details ++ t.details) = t.details) :
    mergeEntries es es = es :=
  mergeEntries_self_aux es es huniq hnorm (fun _ h => h)

/-- With unique labels, sections of equal label are the same section. -/
theorem sec_eq_of_label_eq (S : RSections)
    (hk : nodupB (S.map (fun p => p.1)) = true)
    (p q : String × List ReportEntry) (hp : p ∈ S) (hq : q ∈ S) (he : q.1 = p.1) :
    q = p := by
  induction S with
  | nil => cases hp
  | cons x xs ih =>
      simp only [List.map_cons, nodupB, Bool.and_eq_true, Bool.not_eq_true'] at hk
      rcases List.mem_cons.mp hp with rfl | hp'
      · rcases List.mem_cons.mp hq with rfl | hq'
        · rfl
        · exfalso
          have hc : (xs.map (fun y => y.1)).contains p.1 = true :=
            (containsB_iff _ _).mpr (List.mem_map.mpr ⟨q, hq', he⟩)
          rw [hk.1] at hc
          exact Bool.noConfusion hc
      · rcases List.mem_cons.mp hq with rfl | hq'
        · exfalso
          have hc : (xs.map (fun y => y.1)).contains q.1 = true :=
            (containsB_iff _ _).mpr (List.mem_map.mpr ⟨p, hp', he.symm⟩)
          rw [hk.1] at hc
          exact Bool.noConfusion hc
        · exact ih hk.2 hp' hq'

/-- Folding sections that are all already present into a well-formed section
list changes nothing. -/
theorem foldl_mergeSecStep_self (inc : RSections) (S : RSections)
    (hk : nodupB (S.map (fun p => p.1)) = true)
    (huniq : uniqSummariesB S = true)
    (hnorm : ∀ p ∈ S, ∀ e ∈ p.2, dedupe_preserve_order (e.details ++ e.details) = e.details)
    (hinc : ∀ p ∈ inc, p ∈ S) :
    inc.foldl mergeSecStep S = S := by
  unfold uniqSummariesB at huniq
  induction inc with
  | nil => rfl
  | cons p rest ih =>
      rw [List.foldl_cons]
      have hp := hinc p (List.mem_cons_self _ _)
      have hstep : mergeSecStep S p = S := by
        unfold mergeSecStep
        rw [if_pos (List.any_eq_true.mpr ⟨p, hp, by simp⟩)]
        have hid : ∀ q ∈ S, (if q.1 = p.1 then (q.1, mergeEntries q.2 p.2) else q) = q := by
          intro q hq
          by_cases hqp : q.1 = p.1
          · rw [if_pos hqp]
            have hqeq : q = p := sec_eq_of_label_eq S hk p q hp hq hqp
            subst hqeq
            rw [mergeEntries_self q.2 ((List.all_eq_true.mp huniq) q hq) (hnorm q hq)]
          · rw [if_neg hqp]
        rw [List.map_congr_left hid, List.map_id']
      rw [hstep]
      exact ih (fun x hx => hinc x (List.mem_cons_of_mem p hx))

/-- The final de-duplication pass is the identity on normalized sections. -/
theorem dedupAllSections_self (S : RSections) (hnorm : dedupNormalB S = true) :
    dedupAllSections S = S := by
  unfold dedupAllSections
  unfold dedupNormalB at hnorm
  have hid : ∀ q ∈ S,
      (q.1, q.2.map (fun e => (⟨e.summary, dedupe_preserve_order e.details⟩ : ReportEntry))) = q := by
    intro q hq
    have hq' := (List.all_eq_true.mp hnorm) q hq
    have hen : ∀ e ∈ q.2, (⟨e.summary, dedupe_preserve_order e.details⟩ : ReportEntry) = e := by
      intro e he
      have hb := (List.all_eq_true.mp hq') e he
      rw [eq_of_beq hb]
    rw [List.map_congr_left hen, List.map_id']
  rw [List.map_congr_left hid, List.map_id']

/-- `_merge_sections` of a normalized well-formed section list with itself is
the identity. -/
theorem merge_sections_self (S : RSections)
    (hk : nodupB (S.map (fun p => p.1)) = true)
    (huniq : uniqSummariesB S = true)
    (hnorm : dedupNormalB S = true) :
    merge_sections S S = S := by
  have hnorm' : ∀ p ∈ S, ∀ e ∈ p.2,
      dedupe_preserve_order (e.details ++ e.details) = e.details := by
    intro p hp e he
    have h1 := (List.all_eq_true.mp ((List.all_eq_true.mp hnorm) p hp)) e he
    rw [dedupe_self_append]
    exact eq_of_beq h1
  rw [merge_sections_eq, foldl_mergeSecStep_self S S hk huniq hnorm' (fun _ h => h),
      dedupAllSections_self S hnorm]

/-- The preamble block builder is idempotent. -/
theorem renderPre_idem (pre : List String) : renderPre (renderPre pre) = renderPre pre := by
  cases hlast : pre.getLast? with
  | none =>
      have hnil : pre = [] := List.getLast?_eq_none_iff.mp hlast
      subst hnil
      rfl
  | some last =>
      have hpre : renderPre pre = pre ++ (if blankLine last then [] else [""]) := by
        unfold renderPre
        rw [hlast]
      by_cases hb : blankLine last = true
      · rw [hpre, if_pos hb, List.append_nil, hpre, if_pos hb, List.append_nil]
      · rw [hpre, if_neg hb]
        unfold renderPre
        rw [List.getLast?_concat]
        dsimp only
        rw [if_pos (by decide : blankLine "" = true), List.append_nil]

/-- The rendered document is always terminated by exactly one trailing
newline: the line-pop loop removed every trailing blank line, and the
serializer appends the single final `"\n"`. -/
theorem render_properlyTerminated (pre : List String) (secs : RSections)
    (hnl : ∀ l ∈ renderLines pre secs, noNL l = true) :
    properlyTerminated (render_report_markdown pre secs) = true := by
  by_cases hL : renderLines pre secs = []
  · unfold render_report_markdown
    rw [hL]
    decide
  · unfold render_report_markdown properlyTerminated
    have hdata : (joinNL (renderLines pre secs) ++ "\n").data
        = (joinNL (renderLines pre secs)).data ++ ['\n'] := by
      rw [strData_append]
    have hnotblank : (stripCs ((renderLines pre secs).getLast hL).data == []) = false := by
      have h := List.rdropWhile_last_not
        (p := blankLine) (l := renderPre pre ++ renderBody secs)
        (by
          show popBlanks (renderPre pre ++ renderBody secs) ≠ []
          exact hL)
      rw [Bool.eq_false_iff]
      exact h
    rw [hdata, splitOnNL_joinNL _ hL hnl]
    simp only [List.getLast?_concat, List.dropLast_concat, List.getLast?_map,
      List.getLast?_eq_getLast _ hL, Option.map_some', hnotblank]
    simp

/-- Assemble `sectionsOkB` from its three parts. -/
theorem sectionsOkB_of_parts (S : RSections)
    (h1 : S.all (fun p => labelOkB p.1 && p.2.all entryOkB) = true)
    (h2 : nodupB (S.map (fun p => p.1)) = true)
    (h3 : headLabelOkB S = true) :
    sectionsOkB S = true := by
  unfold sectionsOkB
  unfold headLabelOkB at h3
  rw [h1, h2, h3]
  rfl

/-- `sectionsOkB` for a single section. -/
theorem sectionsOkB_single (L : String) (es : List ReportEntry)
    (h1 : labelOkB L = true) (h2 : es.all entryOkB = true)
    (h3 : pyStartsWith L "#" = false) :
    sectionsOkB [(L, es)] = true := by
  unfold sectionsOkB
  simp [h1, h2, h3, nodupB]

/-- Stripping is the identity on already-stripped strings. -/
theorem pyStrip_eq_self (s : String) (h : strOkB s = true) : pyStrip s = s := by
  unfold strOkB at h
  rw [Bool.and_eq_true] at h
  have ht := h.2
  unfold trimmedB at ht
  unfold pyStrip
  rw [eq_of_beq ht]

/-- `merge_report_content` with its locals substituted. -/
theorem merge_report_content_eq (existing new : String) :
    merge_report_content existing new =
      render_report_markdown
        (if (parse_report_markdown existing).1.isEmpty then (parse_report_markdown new).1
          else (parse_report_markdown existing).1)
        (merge_sections (parse_report_markdown existing).2 (parse_report_markdown new).2) := rfl

/-- C5, counterexample: the report text built by `generate_report` has no
trailing newline at all (the claimed invariant fails for it; `save_report`
appends the newline when first writing the file). -/
theorem claim_C5_counterexample :
    properlyTerminated (generate_report demoC5 []) = false := by decide

/-- C5: every document re-serialized by the merge pipeline is terminated by
exactly one trailing newline, with no trailing blank content before it. -/
theorem claim_C5 (existing new : String) :
    properlyTerminated (merge_report_content existing new) = true := by
  have hwe := parse_report_wf existing
  have hwn := parse_report_wf new
  have hS := (merge_sections_wf _ _ hwe.1 hwe.2.1 hwn.1).1
  have hpre : preOkB (if (parse_report_markdown existing).1.isEmpty
      then (parse_report_markdown new).1 else (parse_report_markdown existing).1) = true := by
    split
    · exact hwn.2.2
    · exact hwe.2.2
  rw [merge_report_content_eq]
  exact render_properlyTerminated _ _ (renderLines_noNL _ _ hpre hS)

/-- C2, counterexample: feeding the renderer the parse of the hand-edited
text `"\t#foo\n  - x"` (a document the merge pipeline really renders) and
re-parsing does not reconstruct the sections: the first section label
`"#foo"` is re-absorbed into the preamble, and the entry lands in a fresh
`"其他"` section. -/
theorem claim_C2_counterexample :
    (parse_report_markdown
        (render_report_markdown (parse_report_markdown tabHashDoc).1
          (parse_report_markdown tabHashDoc).2)).2 ≠
      (parse_report_markdown tabHashDoc).2 := by decide

/-- C2: for a preamble of blank/heading lines and well-formed sections whose
first label does not begin with `#`, parsing the rendered document
reconstructs the sections exactly. -/
theorem claim_C2 (pre : List String) (S : RSections)
    (hpre : preOkB pre = true) (hS : sectionsOkB S = true) :
    (parse_report_markdown (render_report_markdown pre S)).2 = S :=
  (parse_render_report pre S hpre hS).1

/-- C2, witness: a concrete preamble and section list satisfying the
hypotheses, with the round trip evaluated. -/
theorem claim_C2_witness :
    preOkB ["# 周报"] = true ∧
      sectionsOkB [("项目A", [⟨"登录", ["细节"]⟩])] = true ∧
      (parse_report_markdown
          (render_report_markdown ["# 周报"] [("项目A", [⟨"登录", ["细节"]⟩])])).2 =
        [("项目A", [⟨"登录", ["细节"]⟩])] :=
  ⟨by decide, by decide, claim_C2 _ _ (by decide) (by decide)⟩

/-- C6, counterexample: a hand-edited document whose one section repeats a
summary passes through the merge untouched — the merged output still has two
entries with the same summary in one section, so the claimed invariant fails
for arbitrary parsed inputs. -/
theorem claim_C6_counterexample :
    uniqSummariesB
      (parse_report_markdown (merge_report_content "A\n  - x\n  - x\n" "")).2 = false := by
  decide

/-- C6: when both parsed inputs already have unique per-section summaries and
the merged sections' first label is not a heading line, every section of the
re-parsed merge output has unique entry summaries. -/
theorem claim_C6 (existing new : String)
    (hue : uniqSummariesB (parse_report_markdown existing).2 = true)
    (hun : uniqSummariesB (parse_report_markdown new).2 = true)
    (hhead : headLabelOkB (merge_sections (parse_report_markdown existing).2
        (parse_report_markdown new).2) = true) :
    uniqSummariesB (parse_report_markdown (merge_report_content existing new)).2 = true := by
  have hwe := parse_report_wf existing
  have hwn := parse_report_wf new
  obtain ⟨hMwf, hMkeys⟩ := merge_sections_wf _ _ hwe.1 hwe.2.1 hwn.1
  have hMok := sectionsOkB_of_parts _ hMwf hMkeys hhead
  have hpre : preOkB (if (parse_report_markdown existing).1.isEmpty
      then (parse_report_markdown new).1 else (parse_report_markdown existing).1) = true := by
    split
    · exact hwn.2.2
    · exact hwe.2.2
  rw [merge_report_content_eq, (parse_render_report _ _ hpre hMok).1]
  exact merge_sections_uniq _ _ hue hun

/-- C6, witness: two renderer-style documents sharing a section, merged; the
hypotheses hold and the merged document's summaries are unique. -/
theorem claim_C6_witness :
    uniqSummariesB (parse_report_markdown "A\n  - x\n").2 = true ∧
      uniqSummariesB (parse_report_markdown "A\n  - y\n").2 = true ∧
      headLabelOkB (merge_sections (parse_report_markdown "A\n  - x\n").2
        (parse_report_markdown "A\n  - y\n").2) = true ∧
      uniqSummariesB
        (parse_report_markdown (merge_report_content "A\n  - x\n" "A\n  - y\n")).2 = true :=
  ⟨by decide, by decide, by decide, claim_C6 _ _ (by decide) (by decide) (by decide)⟩

/-- C3, counterexample: merging a hand-edited document with itself is not a
no-op — the repeated summary `x` makes the `by_summary` dict point at the
last entry, which absorbs the first entry's detail, so `merge(D, D) ≠ D`. -/
theorem claim_C3_counterexample :
    merge_report_content dupSummaryDoc dupSummaryDoc ≠ dupSummaryDoc := by decide

/-- C3: merging a rendered document with itself is the identity when the
sections are well-formed with unique summaries and de-duplicated details. -/
theorem claim_C3 (pre : List String) (S : RSections)
    (hpre : preOkB pre = true) (hS : sectionsOkB S = true)
    (huniq : uniqSummariesB S = true) (hnorm : dedupNormalB S = true)
    (hne : S ≠ []) :
    merge_report_content (render_report_markdown pre S) (render_report_markdown pre S) =
      render_report_markdown pre S := by
  have hS' := hS
  simp only [sectionsOkB, Bool.and_eq_true] at hS'
  obtain ⟨⟨hwf, hnodup⟩, hhead⟩ := hS'
  have hfull := (parse_render_report pre S hpre hS).2 hne
  rw [merge_report_content_eq, hfull]
  dsimp only
  rw [ite_self, merge_sections_self S hnodup huniq hnorm]
  unfold render_report_markdown renderLines
  rw [renderPre_idem]

/-- C3, witness: a concrete rendered document satisfying the hypotheses,
merged with itself unchanged. -/
theorem claim_C3_witness :
    preOkB ["# 第1周"] = true ∧ sectionsOkB [("项目A", [⟨"登录", ["旧"]⟩])] = true ∧
      uniqSummariesB [("项目A", [⟨"登录", ["旧"]⟩])] = true ∧
      dedupNormalB [("项目A", [⟨"登录", ["旧"]⟩])] = true ∧
      ([("项目A", [⟨"登录", ["旧"]⟩])] : RSections) ≠ [] ∧
      merge_report_content
          (render_report_markdown ["# 第1周"] [("项目A", [⟨"登录", ["旧"]⟩])])
          (render_report_markdown ["# 第1周"] [("项目A", [⟨"登录", ["旧"]⟩])]) =
        render_report_markdown ["# 第1周"] [("项目A", [⟨"登录", ["旧"]⟩])] :=
  ⟨by decide, by decide, by decide, by decide, by decide,
    claim_C3 _ _ (by decide) (by decide) (by decide) (by decide) (by decide)⟩
/-- C4: merge additivity. Merging two rendered single-section documents with
the same valid label: an incoming entry with the same summary extends that
entry's details by concatenation (de-duplicated, order preserved), and an
incoming entry with a different summary is appended as a new entry at the end
of the section. -/
theorem claim_C4 (L s s₂ d₁ d₂ : String)
    (hL : labelOkB L = true) (hLh : pyStartsWith L "#" = false)
    (hs : strOkB s = true) (hs₂ : strOkB s₂ = true)
    (hd₁ : strOkB d₁ = true) (hd₂ : strOkB d₂ = true)
    (hne₁ : d₁ ≠ "") (hne₂ : d₂ ≠ "") (hne₁₂ : d₂ ≠ d₁) (hss : s₂ ≠ s) :
    merge_report_content (render_report_markdown [] [(L, [⟨s, [d₁]⟩])])
        (render_report_markdown [] [(L, [⟨s, [d₂]⟩])]) =
      render_report_markdown [] [(L, [⟨s, [d₁, d₂]⟩])] ∧
    merge_report_content (render_report_markdown [] [(L, [⟨s, [d₁]⟩])])
        (render_report_markdown [] [(L, [⟨s₂, [d₂]⟩])]) =
      render_report_markdown [] [(L, [⟨s, [d₁]⟩, ⟨s₂, [d₂]⟩])] := by
  have hstrip₁ : pyStrip d₁ = d₁ := pyStrip_eq_self d₁ hd₁
  have hstrip₂ : pyStrip d₂ = d₂ := pyStrip_eq_self d₂ hd₂
  have hded₁ : dedupe_preserve_order [d₁] = [d₁] := by
    unfold dedupe_preserve_order
    rw [dedupeAux_cons_emit [] d₁ [] (by rw [hstrip₁]; exact hne₁)
      (by rw [hstrip₁]; rfl)]
    rw [hstrip₁]
    rfl
  have hded₂ : dedupe_preserve_order [d₂] = [d₂] := by
    unfold dedupe_preserve_order
    rw [dedupeAux_cons_emit [] d₂ [] (by rw [hstrip₂]; exact hne₂)
      (by rw [hstrip₂]; rfl)]
    rw [hstrip₂]
    rfl
  have hded : dedupe_preserve_order [d₁, d₂] = [d₁, d₂] := by
    unfold dedupe_preserve_order
    rw [dedupeAux_cons_emit [] d₁ [d₂] (by rw [hstrip₁]; exact hne₁)
      (by rw [hstrip₁]; rfl)]
    rw [hstrip₁]
    rw [dedupeAux_cons_emit [d₁] d₂ [] (by rw [hstrip₂]; exact hne₂)
      (by
        rw [hstrip₂, Bool.eq_false_iff]
        intro hcon
        exact hne₁₂ (by simpa using (containsB_iff _ _).mp hcon))]
    rw [hstrip₂]
    rfl
  have hes₁ : ([⟨s, [d₁]⟩] : List ReportEntry).all entryOkB = true := by
    simp [entryOkB, hs, hd₁]
  have hes₂ : ([⟨s, [d₂]⟩] : List ReportEntry).all entryOkB = true := by
    simp [entryOkB, hs, hd₂]
  have hes₂' : ([⟨s₂, [d₂]⟩] : List ReportEntry).all entryOkB = true := by
    simp [entryOkB, hs₂, hd₂]
  have hp₁ : parse_report_markdown (render_report_markdown [] [(L, [⟨s, [d₁]⟩])])
      = ([], [(L, [⟨s, [d₁]⟩])]) :=
    (parse_render_report [] _ (by decide) (sectionsOkB_single L _ hL hes₁ hLh)).2 (by simp)
  have hp₂ : parse_report_markdown (render_report_markdown [] [(L, [⟨s, [d₂]⟩])])
      = ([], [(L, [⟨s, [d₂]⟩])]) :=
    (parse_render_report [] _ (by decide) (sectionsOkB_single L _ hL hes₂ hLh)).2 (by simp)
  have hp₂' : parse_report_markdown (render_report_markdown [] [(L, [⟨s₂, [d₂]⟩])])
      = ([], [(L, [⟨s₂, [d₂]⟩])]) :=
    (parse_render_report [] _ (by decide) (sectionsOkB_single L _ hL hes₂' hLh)).2 (by simp)
  constructor
  · have hmergeE : mergeEntries [(⟨s, [d₁]⟩ : ReportEntry)] [⟨s, [d₂]⟩]
        = [⟨s, [d₁, d₂]⟩] := by
      unfold mergeEntries
      rw [List.foldl_cons, List.foldl_nil]
      unfold mergeOneEntry
      rw [if_pos (by simp)]
      unfold updLastBySummary
      rw [if_neg (by simp), if_pos rfl]
      show [(⟨s, dedupe_preserve_order ([d₁] ++ [d₂])⟩ : ReportEntry)] = _
      rw [show [d₁] ++ [d₂] = [d₁, d₂] from rfl, hded]
    have hmerge : merge_sections [(L, [⟨s, [d₁]⟩])] [(L, [⟨s, [d₂]⟩])]
        = [(L, [⟨s, [d₁, d₂]⟩])] := by
      rw [merge_sections_eq, List.foldl_cons, List.foldl_nil]
      have hstep : mergeSecStep [(L, [⟨s, [d₁]⟩])] (L, [⟨s, [d₂]⟩])
          = [(L, [⟨s, [d₁, d₂]⟩])] := by
        unfold mergeSecStep
        rw [if_pos (by simp), List.map_cons, List.map_nil]
        dsimp only
        rw [if_pos rfl, hmergeE]
      rw [hstep]
      unfold dedupAllSections
      rw [List.map_cons, List.map_nil]
      dsimp only
      rw [List.map_cons, List.map_nil]
      dsimp only
      rw [hded]
    rw [merge_report_content_eq, hp₁, hp₂]
    dsimp only
    rw [ite_self, hmerge]
  · have hmergeE : mergeEntries [(⟨s, [d₁]⟩ : ReportEntry)] [⟨s₂, [d₂]⟩]
        = [⟨s, [d₁]⟩, ⟨s₂, [d₂]⟩] := by
      unfold mergeEntries
      rw [List.foldl_cons, List.foldl_nil]
      unfold mergeOneEntry
      have hne' : ¬ ((List.any [(⟨s, [d₁]⟩ : ReportEntry)]
          (fun t => t.summary == (⟨s₂, [d₂]⟩ : ReportEntry).summary)) = true) := by
        simp only [List.any_cons, List.any_nil, Bool.or_false]
        intro hcon
        have heq : s = s₂ := by simpa using hcon
        exact hss heq.symm
      rw [if_neg hne']
      rfl
    have hmerge : merge_sections [(L, [⟨s, [d₁]⟩])] [(L, [⟨s₂, [d₂]⟩])]
        = [(L, [⟨s, [d₁]⟩, ⟨s₂, [d₂]⟩])] := by
      rw [merge_sections_eq, List.foldl_cons, List.foldl_nil]
      have hstep : mergeSecStep [(L, [⟨s, [d₁]⟩])] (L, [⟨s₂, [d₂]⟩])
          = [(L, [⟨s, [d₁]⟩, ⟨s₂, [d₂]⟩])] := by
        unfold mergeSecStep
        rw [if_pos (by simp), List.map_cons, List.map_nil]
        dsimp only
        rw [if_pos rfl, hmergeE]
      rw [hstep]
      unfold dedupAllSections
      rw [List.map_cons, List.map_nil]
      dsimp only
      rw [List.map_cons, List.map_cons, List.map_nil]
      dsimp only
      rw [hded₁, hded₂]
    rw [merge_report_content_eq, hp₁, hp₂']
    dsimp only
    rw [ite_self, hmerge]

/-- C4, witness: the spec's own ProjectA/login scenario with details
`["old"]` and `["new"]`, plus a differently-summarized incoming entry,
evaluated. -/
theorem claim_C4_witness :
    labelOkB "ProjectA" = true ∧ pyStartsWith "ProjectA" "#" = false ∧
      strOkB "login" = true ∧ strOkB "logout" = true ∧
      strOkB "old" = true ∧ strOkB "new" = true ∧
      ("old" : String) ≠ "" ∧ ("new" : String) ≠ "" ∧ ("new" : String) ≠ "old" ∧
      ("logout" : String) ≠ "login" ∧
      (merge_report_content
          (render_report_markdown [] [("ProjectA", [⟨"login", ["old"]⟩])])
          (render_report_markdown [] [("ProjectA", [⟨"login", ["new"]⟩])]) =
        render_report_markdown [] [("ProjectA", [⟨"login", ["old", "new"]⟩])] ∧
      merge_report_content
          (render_report_markdown [] [("ProjectA", [⟨"login", ["old"]⟩])])
          (render_report_markdown [] [("ProjectA", [⟨"logout", ["new"]⟩])]) =
        render_report_markdown [] [("ProjectA", [⟨"login", ["old"]⟩, ⟨"logout", ["new"]⟩])]) :=
  ⟨by decide, by decide, by decide, by decide, by decide, by decide, by decide, by decide,
    by decide, by decide,
    claim_C4 "ProjectA" "login" "logout" "old" "new" (by decide) (by decide) (by decide)
      (by decide) (by decide) (by decide) (by decide) (by decide) (by decide) (by decide)⟩
